import Mathlib

/-!
Verification of the operation-based patch engine of the UML diagram generator.

This file gives a shallow embedding, in Lean 4, of the pure algorithmic parts of
the repository and proves (or refutes) the frozen claims about them:

* the path-addressed structural patcher
  (`nodes/context_extractor.py`: `parse_block_value`, `apply_operations`,
  `_apply_operation`);
* the line-pattern-addressed text patcher
  (`nodes/code_generator.py`: `_parse_location_pattern`, `_find_line_index`,
  `_apply_operation`, `apply_operations`);
* the version ledger (`driver.py` versioning block together with
  `utils/db_utils.py`: `get_latest_diagram`, `add_diagram`);
* the validated retry executor (`utils/decorators.py`: `retry_on_failure`).

Python values manipulated by the structural patcher are modelled by the

inductive `PyVal`; Python `dict`s are modelled as association lists in
insertion order, which matches the observable behaviour of `dict`
get/set/delete for the string keys used throughout the source.  Fallible
Python code (code that can raise) is modelled with `Option`: `none` stands
for an uncaught exception escaping the modelled function.
-/

/-- A Python value as handled by the structural patcher: strings, ints,
floats (kept as their literal text, since no claim depends on float
arithmetic), booleans, `None`, lists, and string-keyed dicts in insertion
order. -/
inductive PyVal where
  | vstr : String → PyVal
  | vint : Int → PyVal
  | vfloat : String → PyVal
  | vbool : Bool → PyVal
  | vnull : PyVal
  | vlist : List PyVal → PyVal
  | vdict : List (String × PyVal) → PyVal

/-- A structural document: a Python dict, modelled as an association list in
insertion order. -/
abbrev PyDict := List (String × PyVal)

/-- `isinstance(v, dict)`. -/
def PyVal.isDict : PyVal → Bool
  | .vdict _ => true
  | _ => false

/-- `isinstance(v, list)`. -/
def PyVal.isList : PyVal → Bool
  | .vlist _ => true
  | _ => false

/-- `key in d` for a Python dict. -/
def dictHasKey (d : PyDict) (k : String) : Bool :=
  d.any (fun p => p.1 = k)

/-- `d[key]` for a Python dict (first entry with the key; keys are unique in
dicts produced by the source, so this is the Python lookup). -/
def dictGet : PyDict → String → Option PyVal
  | [], _ => none
  | (k0, v0) :: rest, k => if k0 = k then some v0 else dictGet rest k

/-- `d[key] = v` for a Python dict: overwrite in place if the key is present,
otherwise append at the end (insertion order). -/
def dictSet : PyDict → String → PyVal → PyDict
  | [], k, v => [(k, v)]
  | (k0, v0) :: rest, k, v =>
      if k0 = k then (k0, v) :: rest else (k0, v0) :: dictSet rest k v

/-- `del d[key]` for a Python dict (the source only deletes keys it has just
checked to be present). -/
def dictDel : PyDict → String → PyDict
  | [], _ => []
  | (k0, v0) :: rest, k =>
      if k0 = k then rest else (k0, v0) :: dictDel rest k

/-- `len(v)` for a Python value: defined for strings, lists and dicts,
raises `TypeError` (modelled as `none`) otherwise. -/
def pyLen : PyVal → Option Nat
  | .vstr s => some s.length
  | .vlist l => some l.length
  | .vdict d => some d.length
  | _ => none

/-- Whether `pat` occurs as a contiguous run inside `text`. -/
def hasInfix (pat : List Char) : List Char → Bool
  | [] => pat.isEmpty
  | c :: cs => pat.isPrefixOf (c :: cs) || hasInfix pat cs

/-- `key in v` for a Python value, where `key` is a string: key lookup on a
dict, element membership on a list, substring test on a string; raises
`TypeError` (modelled as `none`) on ints, floats, booleans and `None`.
(`==` between a string and a non-string Python value is `False`, so list
membership only compares against string elements.) -/
def pyContains (cur : PyVal) (k : String) : Option Bool :=
  match cur with
  | .vdict d => some (dictHasKey d k)
  | .vlist l => some (l.any (fun v => match v with | .vstr s => s = k | _ => false))
  | .vstr s => some (hasInfix k.toList s.toList)
  | _ => none

/-- An index suffix of a path token: either a numeric index `[N]` or the
literal `[end]`. -/
inductive Idx where
  | iNum : Nat → Idx
  | iEnd : Idx
deriving DecidableEq

/-- One step of a parsed path: a key and an optional index. -/
abbrev Step := String × Option Idx

/-- The numeric value of a digit string, `int(ds)` in the source. -/
def natOfDigits (ds : List Char) : Nat :=
  ds.foldl (fun acc c => acc * 10 + (c.toNat - '0'.toNat)) 0

/-- Splits a string at every occurrence of the character `sep`
(Python `str.split(sep)`: `""` splits to `[""]`, separators at the ends
produce empty fields). -/
def splitOnCharAux (sep : Char) : List Char → List Char → List String
  | [], acc => [String.mk acc.reverse]
  | c :: cs, acc =>
      if c = sep then String.mk acc.reverse :: splitOnCharAux sep cs []
      else splitOnCharAux sep cs (c :: acc)

/-- `location.split(sep)` on Python strings. -/
def splitOnChar (sep : Char) (s : String) : List String :=
  splitOnCharAux sep s.toList []

/-- The index part of a path token, i.e. the optional group of the source's
token regexp applied right after the maximal bracket-free key prefix:
accepts `[` digits `]` or `[end]` (anything after the closing bracket is
ignored, as `re.match` only anchors at the start); any other bracket
suffix fails the optional group and yields no index. -/
def idxOfRest : List Char → Option Idx
  | '[' :: rest =>
      let ds := rest.takeWhile Char.isDigit
      if ds ≠ [] ∧ (rest.drop ds.length).head? = some ']' then
        some (.iNum (natOfDigits ds))
      else if ['e', 'n', 'd', ']'].isPrefixOf rest then some .iEnd
      else none
  | _ => none

/-- Parses one dotted-path token with the source's regexp
`([^\[]+)(?:\[(\d+|end)\])?` under `re.match`: the key is the maximal
nonempty prefix without `[`; a token with no such prefix does not match
and is skipped by the caller (`none` here). -/
def stepOfToken (t : String) : Option Step :=
  let cs := t.toList
  let key := cs.takeWhile (fun c => c ≠ '[')
  if key = [] then none
  else some (String.mk key, idxOfRest (cs.drop key.length))

/-- `re.split(r'\.', location)` followed by per-token matching: tokens that
fail the token regexp are silently skipped. -/
def parseParts (location : String) : List Step :=
  (splitOnChar '.' location).filterMap stepOfToken

/-- The terminal step of `_apply_operation`: applies `add`/`delete` at the
last `(key, index)` pair to the current value.  Mirrors the source line by
line; `none` models a raised exception. -/
def applyLast (cur : PyVal) (key : String) (idx : Option Idx)
    (operation : String) (v : PyVal) : Option PyVal :=
  if operation = "add" then
    match idx with
    | some i =>
      match cur with
      | .vdict d =>
        -- if last_key not in current: current[last_key] = []
        let d1 := if dictHasKey d key then d else dictSet d key (.vlist [])
        match i with
        | .iEnd =>
          match dictGet d1 key with
          | some (.vlist l) => some (.vdict (dictSet d1 key (.vlist (l ++ [v]))))
          | _ => none        -- `.append` on a non-list raises
        | .iNum n =>
          match dictGet d1 key with
          | some child =>
            match pyLen child with
            | none => none   -- `len()` raises on this value
            | some len =>
              if n ≤ len then
                match child with
                | .vlist l => some (.vdict (dictSet d1 key (.vlist (l.insertIdx n v))))
                | _ => none  -- `.insert` on a non-list raises
              else
                some (.vdict d1)  -- out-of-range insert: silent no-op
          | none => none     -- unreachable: the key was just ensured present
      | _ => none            -- item assignment / subscript on a non-dict raises
    | none =>
      match cur with
      | .vdict d => some (.vdict (dictSet d key v))
      | _ => none            -- item assignment on a non-dict raises
  else if operation = "delete" then
    match idx with
    | some i =>
      -- if last_key in current and isinstance(current[last_key], list):
      match pyContains cur key with
      | none => none
      | some false => some cur            -- condition false: silent no-op
      | some true =>
        match cur with
        | .vdict d =>
          match dictGet d key with
          | some (.vlist l) =>
            match i with
            | .iEnd => some cur           -- deleting at "end" never fires
            | .iNum n =>
              if n < l.length then some (.vdict (dictSet d key (.vlist (l.eraseIdx n))))
              else some cur               -- out-of-range delete: silent no-op
          | _ => some cur                 -- not a list: condition false, no-op
        | _ => none   -- subscripting a string/list with a string key raises
    | none =>
      match pyContains cur key with
      | none => none
      | some false => some cur            -- key absent: silent no-op
      | some true =>
        match cur with
        | .vdict d => some (.vdict (dictDel d key))
        | _ => none        -- `del` by string key on a string/list raises
  else
    some cur  -- any other operation string falls through, context unchanged

/-- Navigation plus terminal application of `_apply_operation`.  The Python
loop walks `parts[:-1]` mutating `current` in place; on tree-shaped data
this is the same as the functional rebuild performed here.  A `(key, index)`
navigation step auto-creates a missing child (`[]` when an index is present,
otherwise an empty dict); a numeric index pads the list with empty dicts up
to the index; the index `end` performs no descent at all (the loop body has
no branch for it), so the remaining steps are applied to the same value.
Descending into a character of a string rebinds `current` to an immutable
one-character string, so a surviving sub-application cannot have changed it
and the enclosing dict is returned unchanged. -/
def applyParts : PyVal → List Step → String → PyVal → Option PyVal
  | _, [], _, _ => none  -- unreachable from applyOperation (parts nonempty)
  | cur, [(key, idx)], operation, v => applyLast cur key idx operation v
  | cur, (key, idx) :: s :: rest, operation, v =>
    match cur with
    | .vdict d =>
      -- if key not in current: current[key] = [] if index is not None else {}
      let d1 := if dictHasKey d key then d
                else dictSet d key (match idx with | some _ => .vlist [] | none => .vdict [])
      match idx with
      | none =>
        match dictGet d1 key with
        | some child =>
            (applyParts child (s :: rest) operation v).map
              (fun child' => .vdict (dictSet d1 key child'))
        | none => none  -- unreachable: the key was just ensured present
      | some .iEnd => applyParts (.vdict d1) (s :: rest) operation v
      | some (.iNum n) =>
        match dictGet d1 key with
        | some child =>
          match pyLen child with
          | none => none  -- `len()` raises on this value
          | some len =>
            if n < len then
              match child with
              | .vlist l =>
                  (applyParts (l.getD n .vnull) (s :: rest) operation v).map
                    (fun el' => .vdict (dictSet d1 key (.vlist (l.set n el'))))
              | .vstr str =>
                  -- current[key][index] is an immutable one-character string
                  (applyParts (.vstr (String.mk [str.toList.getD n ' '])) (s :: rest)
                      operation v).map (fun _ => .vdict d1)
              | _ => none  -- dict[int] raises KeyError (all keys are strings)
            else
              match child with
              | .vlist l =>
                  let padded := l ++ List.replicate (n + 1 - l.length) (.vdict [])
                  (applyParts (padded.getD n .vnull) (s :: rest) operation v).map
                    (fun el' => .vdict (dictSet d1 key (.vlist (padded.set n el'))))
              | _ => none  -- `.append` on a non-list raises
        | none => none  -- unreachable: the key was just ensured present
    | other =>
      -- `key not in current` on a non-dict: membership works on strings and
      -- lists (and the assignment or descent that follows raises), raises on
      -- anything else.  Only the index `end` survives, skipping the step.
      match pyContains other key with
      | none => none
      | some false => none  -- auto-creating assignment raises
      | some true =>
        match idx with
        | some .iEnd => applyParts other (s :: rest) operation v
        | _ => none

/-- `_apply_operation(context, operation, location, value)` from
`nodes/context_extractor.py`: parses the dotted location, navigates, and
applies the operation at the terminal step.  An empty parsed step list makes
the source raise `IndexError` on `parts[-1]` (modelled as `none`). -/
def applyOperation (context : PyDict) (operation location : String) (v : PyVal) :
    Option PyDict :=
  match parseParts location with
  | [] => none
  | p :: ps =>
    match applyParts (.vdict context) (p :: ps) operation v with
    | some (.vdict d) => some d
    | _ => none  -- unreachable: a dict root is rebuilt as a dict

/-- ASCII whitespace as removed by Python `str.strip()` (the source never
feeds non-ASCII whitespace to it). -/
def isPyWs (c : Char) : Bool :=
  c = ' ' || c = '\t' || c = '\n' || c = '\r' || c = '\x0b' || c = '\x0c'

/-- `line.strip() == ""`: the line is empty or whitespace-only. -/
def isBlankLine (line : String) : Bool :=
  line.toList.all isPyWs

/-- `re.search(re.escape(pattern), line)`: the pattern is escaped before the
search, so this is a literal substring test. -/
def lineContains (pattern line : String) : Bool :=
  hasInfix pattern.toList line.toList

/-- The predicate a line must satisfy to count as a match in
`_find_line_index`: blank-line test in `EMPTY_LINE` sentinel mode, literal
substring containment otherwise. -/
def linePred (pattern line : String) : Bool :=
  if pattern = "EMPTY_LINE" then isBlankLine line else lineContains pattern line

/-- The scanning loop shared by both branches of `_find_line_index`:
walks the lines keeping the current index `i` and the number of matches
seen so far, and returns the index at which the count reaches
`occurrence`. -/
def findLineAux (p : String → Bool) (occurrence : Nat) :
    List String → Nat → Nat → Option Nat
  | [], _, _ => none
  | l :: ls, i, count =>
      if p l then
        if count + 1 = occurrence then some i
        else findLineAux p occurrence ls (i + 1) (count + 1)
      else findLineAux p occurrence ls (i + 1) count

/-- `_find_line_index(lines, pattern, occurrence)` from
`nodes/code_generator.py`: the 0-indexed position of the `occurrence`-th
matching line; `none` models the sentinel `-1`. -/
def findLineIndex (lines : List String) (pattern : String) (occurrence : Nat) :
    Option Nat :=
  if pattern = "EMPTY_LINE" then findLineAux isBlankLine occurrence lines 0 0
  else findLineAux (lineContains pattern) occurrence lines 0 0

/-- One closing attempt of the anchor regexp at the current position: the
remaining input must continue with `)[`, a nonempty digit run (maximal, as
`\d+` is greedy and a shorter run would still face a non-`]` digit), and
`]`.  Returns the digit run. -/
def tryCloseAnchor (cs : List Char) : Option (List Char) :=
  match cs with
  | ')' :: '[' :: rest =>
      let ds := rest.takeWhile Char.isDigit
      if ds ≠ [] ∧ (rest.drop ds.length).head? = some ']' then some ds else none
  | _ => none

/-- The backtracking scan of `re.match(r'\((.+?)\)\[(\d+)\]', pattern)`
after the opening parenthesis: the non-greedy group first tries to close at
each position (shortest text wins), otherwise extends by one character; `.`
cannot cross a newline, and the group must be nonempty.  Returns the
captured text (accumulated reversed in `acc`) and the digit run. -/
def scanAnchorAux : List Char → List Char → Option (List Char × List Char)
  | [], _ => none
  | c :: cs, acc =>
      match (if acc.isEmpty then none else tryCloseAnchor (c :: cs)) with
      | some ds => some (acc.reverse, ds)
      | none => if c = '\n' then none else scanAnchorAux cs (c :: acc)

/-- `_parse_location_pattern(pattern)` from `nodes/code_generator.py`:
extracts `(text, occurrence)` from `"(text)[n]"`; any string the regexp
does not match is returned whole with occurrence `1`. -/
def parseLocationPattern (pattern : String) : String × Nat :=
  match pattern.toList with
  | '(' :: rest =>
      match scanAnchorAux rest [] with
      | some (t, ds) => (String.mk t, natOfDigits ds)
      | none => (pattern, 1)
  | _ => (pattern, 1)

/-- `'\n'.join(lines)`. -/
def joinLines : List String → String
  | [] => ""
  | [l] => l
  | l :: l' :: ls => l ++ "\n" ++ joinLines (l' :: ls)

/-- The `delete` search of the text patcher's `_apply_operation`: the first
index at which the block occurs as a contiguous line run is removed;
`none` when the block does not occur. -/
def removeFirstBlock (bl : List String) : List String → Option (List String)
  | [] => if bl.isPrefixOf ([] : List String) then some [] else none
  | l :: ls =>
      if bl.isPrefixOf (l :: ls) then some ((l :: ls).drop bl.length)
      else (removeFirstBlock bl ls).map (fun r => l :: r)

/-- `_apply_operation(code, operation, location, block)` from
`nodes/code_generator.py` (text patcher).  `add` inserts the block
immediately after the line located by the `after_line` anchor, appending at
the end when the anchor misses; the `before_line` anchor is located but
never used for the insertion position.  `delete` removes the first
contiguous occurrence of the block's lines, and is a no-op when it does not
occur.  Any other operation string returns the code unchanged. -/
def applyTextOperation (code operation after_line before_line block : String) :
    String :=
  if operation = "add" then
    let ap := parseLocationPattern after_line
    let bp := parseLocationPattern before_line
    let lines := splitOnChar '\n' code
    let afterIdx := findLineIndex lines ap.1 ap.2
    -- before_idx is computed (and defaulted to len(lines) when missing) but
    -- the insertion position never depends on it
    let _beforeIdx :=
      match findLineIndex lines bp.1 bp.2 with
      | some i => i
      | none => lines.length
    match afterIdx with
    | none => code ++ "\n" ++ block
    | some i => joinLines (lines.insertIdx (i + 1) block)
  else if operation = "delete" then
    let blockLines := splitOnChar '\n' block
    let codeLines := splitOnChar '\n' code
    match removeFirstBlock blockLines codeLines with
    | some ls => joinLines ls
    | none => code
  else code

/-- A string that the anchor regexp `\((.+?)\)\[(\d+)\]` matches: an opening
parenthesis, a nonempty newline-free text of length `tl`, `)[`, a nonempty
digit run of length `dl`, and `]` (trailing characters are free). -/
def AnchorShape (s : String) : Prop :=
  ∃ tl ∈ List.range s.toList.length, ∃ dl ∈ List.range s.toList.length,
    1 ≤ tl ∧ 1 ≤ dl ∧
    s.toList.take 1 = ['('] ∧
    ((s.toList.drop 1).take tl).all (fun c => c ≠ '\n') = true ∧
    (s.toList.drop (1 + tl)).take 2 = [')', '['] ∧
    ((s.toList.drop (3 + tl)).take dl).all Char.isDigit = true ∧
    (s.toList.drop (3 + tl + dl)).take 1 = [']']

instance (s : String) : Decidable (AnchorShape s) := by
  unfold AnchorShape
  infer_instance

/-- The 0-indexed positions, offset by the running index `i`, of the lines
satisfying `p`, in order. -/
def matchPositions (p : String → Bool) : List String → Nat → List Nat
  | [], _ => []
  | l :: ls, i =>
      if p l then i :: matchPositions p ls (i + 1)
      else matchPositions p ls (i + 1)

/-- The outcome of the `retry_on_failure` wrapper: a result returned on a
given attempt, or exhaustion after a number of attempts with the
diagnostics (`last_error`, `last_validation_error`) that the source embeds
in the final `RuntimeError`. -/
inductive RetryOutcome (St : Type) where
  | ok : Nat → St → RetryOutcome St
  | exhausted : Nat → Option String → Option String → RetryOutcome St

/-- The attempt loop of the wrapper built by
`retry_on_failure(max_retries, validation_method)` in `utils/decorators.py`.
`remaining` counts the attempts left, `attempt` is the 1-based attempt
number; the decorated method's behaviour on attempt `n` is `produce n`
(`.error e` models it raising `e`).  `validate = none` models
`hasattr(self, validation_method)` being false, in which case a produced
result is returned unvalidated.  A validation failure records the reason
and raises a `ValueError` whose text becomes `last_error`, exactly as in
the source; exhaustion reports the attempts made and both diagnostics. -/
def retryGo {St : Type} (produce : Nat → Except String St)
    (validate : Option (St → Bool × String)) :
    Nat → Nat → Option String → Option String → RetryOutcome St
  | 0, attempt, lastErr, lastVal => .exhausted (attempt - 1) lastErr lastVal
  | r + 1, attempt, _lastErr, lastVal =>
    match produce attempt with
    | .error e => retryGo produce validate r (attempt + 1) (some e) lastVal
    | .ok st =>
      match validate with
      | none => .ok attempt st
      | some vf =>
        if (vf st).1 then .ok attempt st
        else retryGo produce validate r (attempt + 1)
          (some ("Validation failed: " ++ (vf st).2)) (some (vf st).2)

/-- The wrapper `retry_on_failure(max_retries, validation_method)` applied
to a method: attempts run from 1 to `maxRetries` with no recorded
diagnostics initially. -/
def retryOnFailure {St : Type} (produce : Nat → Except String St)
    (validate : Option (St → Bool × String)) (maxRetries : Nat) :
    RetryOutcome St :=
  retryGo produce validate maxRetries 1 none none

/-- Attempt `n` fails: the method raises, or its result fails validation. -/
def attemptFailsB {St : Type} (produce : Nat → Except String St)
    (vf : St → Bool × String) (n : Nat) : Bool :=
  match produce n with
  | .error _ => true
  | .ok st => !(vf st).1

/-- The `last_error` recorded by a failing attempt `n`: the raised error, or
the text of the `ValueError` raised on validation failure. -/
def lastErrSpec {St : Type} (produce : Nat → Except String St)
    (vf : St → Bool × String) (n : Nat) : String :=
  match produce n with
  | .error e => e
  | .ok st => "Validation failed: " ++ (vf st).2

/-- The validation reason of the latest attempt in `[a, a + r)` whose
produce succeeded (on the all-attempts-fail path every produced result
fails validation, so its reason is recorded); `none` when every attempt in
the window raised. -/
def lastValFrom {St : Type} (produce : Nat → Except String St)
    (vf : St → Bool × String) (a : Nat) : Nat → Option String
  | 0 => none
  | r + 1 =>
    match lastValFrom produce vf (a + 1) r with
    | some m => some m
    | none =>
      match produce a with
      | .ok st => some (vf st).2
      | .error _ => none

/-- `some x` wins over the fallback, otherwise the fallback. -/
def orElseO {α : Type} : Option α → Option α → Option α
  | some x, _ => some x
  | none, y => y

/-- JSON whitespace as skipped by `json.loads`: space, tab, newline,
carriage return. -/
def isJsonWs (c : Char) : Bool :=
  c = ' ' || c = '\t' || c = '\n' || c = '\r'

/-- Skips JSON whitespace. -/
def skipWs (cs : List Char) : List Char :=
  cs.dropWhile isJsonWs

/-- Hexadecimal digit test for `\\uXXXX` escapes. -/
def isHexDigitC (c : Char) : Bool :=
  c.isDigit || ('a' ≤ c && c ≤ 'f') || ('A' ≤ c && c ≤ 'F')

/-- The numeric value of a hexadecimal digit string. -/
def hexVal (ds : List Char) : Nat :=
  ds.foldl (fun acc c =>
    acc * 16 +
      (if c.isDigit then c.toNat - '0'.toNat
       else if 'a' ≤ c then c.toNat - 'a'.toNat + 10
       else c.toNat - 'A'.toNat + 10)) 0

/-- Models the JSON string scanner after an opening quote: standard escapes,
`\\uXXXX` decoded directly (without surrogate-pair combination, which no
claim depends on), raw control characters rejected as in strict-mode
`json.loads`.  Fuel bounds the scan. -/
def parseJStringAux : Nat → List Char → List Char → Option (String × List Char)
  | 0, _, _ => none
  | _ + 1, [], _ => none
  | f + 1, c :: cs, acc =>
    if c = '"' then some (String.mk acc.reverse, cs)
    else if c = '\\' then
      match cs with
      | [] => none
      | e :: cs' =>
        if e = '"' then parseJStringAux f cs' ('"' :: acc)
        else if e = '\\' then parseJStringAux f cs' ('\\' :: acc)
        else if e = '/' then parseJStringAux f cs' ('/' :: acc)
        else if e = 'b' then parseJStringAux f cs' ('\x08' :: acc)
        else if e = 'f' then parseJStringAux f cs' ('\x0c' :: acc)
        else if e = 'n' then parseJStringAux f cs' ('\n' :: acc)
        else if e = 'r' then parseJStringAux f cs' ('\r' :: acc)
        else if e = 't' then parseJStringAux f cs' ('\t' :: acc)
        else if e = 'u' then
          let hex := cs'.take 4
          if hex.length = 4 ∧ hex.all isHexDigitC ∧ hexVal hex < 1114112 then
            parseJStringAux f (cs'.drop 4) (Char.ofNat (hexVal hex) :: acc)
          else none
        else none
    else if c.toNat < 32 then none
    else parseJStringAux f cs (c :: acc)

/-- Models the JSON number regexp `-?(0|[1-9]\d*)(\.\d+)?([eE][-+]?\d+)?`:
an integer literal becomes `vint`, a literal with a fraction or exponent
becomes `vfloat` carrying its text (no claim depends on float values). -/
def parseNumber (cs : List Char) : Option (PyVal × List Char) :=
  let negPfx : List Char := match cs with | '-' :: _ => ['-'] | _ => []
  let cs1 := cs.drop negPfx.length
  let intPart := cs1.takeWhile Char.isDigit
  if intPart = [] then none
  else if 1 < intPart.length ∧ intPart.head? = some '0' then none
  else
    let rest1 := cs1.drop intPart.length
    let fracPart : List Char :=
      match rest1 with
      | '.' :: r2 =>
        let fd := r2.takeWhile Char.isDigit
        if fd = [] then [] else '.' :: fd
      | _ => []
    let rest2 := rest1.drop fracPart.length
    let expPart : List Char :=
      match rest2 with
      | e :: r3 =>
        if e = 'e' ∨ e = 'E' then
          let sgn : List Char :=
            match r3 with
            | s :: _ => if s = '+' ∨ s = '-' then [s] else []
            | _ => []
          let ed := (r3.drop sgn.length).takeWhile Char.isDigit
          if ed = [] then [] else e :: (sgn ++ ed)
        else []
      | _ => []
    let rest3 := rest2.drop expPart.length
    if fracPart = [] ∧ expPart = [] then
      some (.vint ((if negPfx = [] then 1 else -1) * (natOfDigits intPart : Int)),
        rest3)
    else
      some (.vfloat (String.mk (negPfx ++ intPart ++ fracPart ++ expPart)), rest3)

/-- The member loop of a JSON object after its opening brace (nonempty
case): `"key" : value`, separated by commas, terminated by the closing
brace.  `pv` parses one value (tied to `parseJValue` at one less fuel). -/
def parseMembersAux (pv : List Char → Option (PyVal × List Char)) :
    Nat → List Char → Option (List (String × PyVal) × List Char)
  | 0, _ => none
  | f + 1, cs =>
    match skipWs cs with
    | '"' :: cs1 =>
      match parseJStringAux (cs1.length + 1) cs1 [] with
      | none => none
      | some (k, cs2) =>
        match skipWs cs2 with
        | ':' :: cs3 =>
          match pv cs3 with
          | none => none
          | some (v, cs4) =>
            match skipWs cs4 with
            | ',' :: cs5 =>
              (parseMembersAux pv f cs5).map (fun p => ((k, v) :: p.1, p.2))
            | '}' :: cs5 => some ([(k, v)], cs5)
            | _ => none
        | _ => none
    | _ => none

/-- The element loop of a JSON array after its opening bracket (nonempty
case). -/
def parseElemsAux (pv : List Char → Option (PyVal × List Char)) :
    Nat → List Char → Option (List PyVal × List Char)
  | 0, _ => none
  | f + 1, cs =>
    match pv cs with
    | none => none
    | some (v, cs1) =>
      match skipWs cs1 with
      | ',' :: cs2 => (parseElemsAux pv f cs2).map (fun p => (v :: p.1, p.2))
      | ']' :: cs2 => some ([v], cs2)
      | _ => none

/-- One JSON value, dispatched on the first non-whitespace character exactly
as `json.loads` does; fuel bounds the nesting depth. -/
def parseJValue : Nat → List Char → Option (PyVal × List Char)
  | 0, _ => none
  | f + 1, cs =>
    match skipWs cs with
    | [] => none
    | c :: cs1 =>
      if c = '{' then
        match skipWs cs1 with
        | '}' :: cs2 => some (.vdict [], cs2)
        | _ => (parseMembersAux (parseJValue f) (cs1.length + 1) cs1).map
            (fun p => (.vdict p.1, p.2))
      else if c = '[' then
        match skipWs cs1 with
        | ']' :: cs2 => some (.vlist [], cs2)
        | _ => (parseElemsAux (parseJValue f) (cs1.length + 1) cs1).map
            (fun p => (.vlist p.1, p.2))
      else if c = '"' then
        (parseJStringAux (cs1.length + 1) cs1 []).map (fun p => (.vstr p.1, p.2))
      else if c = 't' then
        if cs1.take 3 = ['r', 'u', 'e'] then some (.vbool true, cs1.drop 3)
        else none
      else if c = 'f' then
        if cs1.take 4 = ['a', 'l', 's', 'e'] then some (.vbool false, cs1.drop 4)
        else none
      else if c = 'n' then
        if cs1.take 3 = ['u', 'l', 'l'] then some (.vnull, cs1.drop 3)
        else none
      else if c = '-' ∨ c.isDigit then parseNumber (c :: cs1)
      else none

/-- Models `json.loads(s)`: parse one value and require only whitespace to
remain.  (NaN/Infinity extensions are not modelled; no claim uses them.) -/
def jsonLoads (s : String) : Option PyVal :=
  match parseJValue (s.length + 1) s.toList with
  | some (v, rest) => if skipWs rest = [] then some v else none
  | none => none

/-- `s.strip()` (as a character list). -/
def pyStrip (s : String) : List Char :=
  ((s.toList.dropWhile isPyWs).reverse.dropWhile isPyWs).reverse

/-- The syntactic test of `parse_block_value`: the stripped string starts
and ends with `{`/`}`, or starts and ends with `[`/`]`. -/
def looksLikeJson (s : String) : Bool :=
  ((pyStrip s).head? = some '{' && (pyStrip s).getLast? = some '}') ||
  ((pyStrip s).head? = some '[' && (pyStrip s).getLast? = some ']')

/-- `isinstance(v, str)`. -/
def PyVal.isStr : PyVal → Bool
  | .vstr _ => true
  | _ => false

/-- `parse_block_value(block)` from `nodes/context_extractor.py`: a string
payload that looks like a JSON object or array is parsed with
`json.loads`; on parse failure it is kept as the plain string; everything
else passes through unchanged. -/
def parseBlockValue (block : PyVal) : PyVal :=
  match block with
  | .vstr s =>
    if looksLikeJson s then
      match jsonLoads s with
      | some parsed => parsed
      | none => .vstr s
    else .vstr s
  | other => other

/-- One operation of the structural patcher, as validated by the Pydantic
`Operation` model (`block` is a dict, list or string on the wire; the model
here admits any `PyVal`, which only widens the domain). -/
structure Operation where
  operation : String
  location : String
  block : PyVal
  reasoning : String

/-- The loop of `apply_operations`: each operation's block is normalized by
`parse_block_value`; at location `root` a non-dict block raises
`ValueError` (fatal to the whole batch, modelled `none`) and a dict block
replaces the whole document; any other location goes through
`_apply_operation`, whose exceptions also abort the batch. -/
def applyOperationsGo : PyDict → List Operation → Option PyDict
  | ctx, [] => some ctx
  | ctx, op :: rest =>
    let parsedBlock := parseBlockValue op.block
    if op.location = "root" then
      match parsedBlock with
      | .vdict d => applyOperationsGo d rest
      | _ => none
    else
      match applyOperation ctx op.operation op.location parsedBlock with
      | some ctx' => applyOperationsGo ctx' rest
      | none => none

/-- `apply_operations(previous_context, operations)` from
`nodes/context_extractor.py`: starts from a copy of the previous context
(or an empty dict) and applies the operations in order. -/
def applyOperations (previous : Option PyDict) (ops : List Operation) :
    Option PyDict :=
  applyOperationsGo (previous.getD []) ops

/-- One record of `diagrams.json` as written by `add_diagram`
(`utils/db_utils.py`).  The file-path, timestamp and feedback fields are
never read by the versioning logic and are omitted. -/
structure DiagramRecord where
  diagram_id : String
  parent_diagram_id : Option String
  version : Nat
  user_id : String
  thread_id : String
  message_id : String
  diagram_type : String
deriving DecidableEq

/-- The filter of `get_latest_diagram`: same user, thread and diagram
type. -/
def matchesKey (d : DiagramRecord) (user thread dtype : String) : Bool :=
  d.user_id = user && d.thread_id = thread && d.diagram_type = dtype

/-- The head of the matching records sorted by version descending with
Python's stable `list.sort(reverse=True)`: the first record attaining the
maximal version (stable sort keeps the original order of equal keys). -/
def selectFirstMax : List DiagramRecord → Option DiagramRecord
  | [] => none
  | r :: rs =>
    match selectFirstMax rs with
    | none => some r
    | some m => if r.version < m.version then some m else some r

/-- `get_latest_diagram(user_id, thread_id, diagram_type)` from
`utils/db_utils.py`. -/
def getLatestDiagram (db : List DiagramRecord) (user thread dtype : String) :
    Option DiagramRecord :=
  selectFirstMax (db.filter (fun d => matchesKey d user thread dtype))

/-- `_generate_diagram_id` from `driver.py`. -/
def generateDiagramId (user thread message dtype : String) : String :=
  user ++ "_" ++ thread ++ "_" ++ message ++ "_" ++ dtype

/-- The versioning block of `run_driver` (`driver.py`, lines 186–222)
together with the `add_diagram` append performed by `update_after_run`:
read the latest record for the key, assign `version = latest.version + 1`
(or 1) and `parent_diagram_id = latest.diagram_id` (or `None`), build the
deterministic id and append the new record. -/
def commitDiagram (db : List DiagramRecord)
    (user thread message dtype : String) : List DiagramRecord :=
  let latest := getLatestDiagram db user thread dtype
  let version := match latest with | some l => l.version + 1 | none => 1
  let parent : Option String :=
    match latest with | some l => some l.diagram_id | none => none
  db ++ [{ diagram_id := generateDiagramId user thread message dtype,
           parent_diagram_id := parent, version := version,
           user_id := user, thread_id := thread, message_id := message,
           diagram_type := dtype }]

/-- `N` sequential driver runs for the same key, one per message id, each
reading the database left by the previous one. -/
def commitAll (db : List DiagramRecord) (user thread dtype : String) :
    List String → List DiagramRecord
  | [] => db
  | m :: ms =>
      commitAll (commitDiagram db user thread m dtype) user thread dtype ms

/-- A linear version chain starting at version `n` with parent `p`: each
record's version increments by one and its parent is the previous record's
diagram id. -/
def chainFrom : Nat → Option String → List DiagramRecord → Prop
  | _, _, [] => True
  | n, p, r :: rs =>
      r.version = n ∧ r.parent_diagram_id = p ∧
        chainFrom (n + 1) (some r.diagram_id) rs

theorem dictHasKey_of_get {d : PyDict} {k : String} {v : PyVal}
    (h : dictGet d k = some v) : dictHasKey d k = true := by
  induction d with
  | nil => simp [dictGet] at h
  | cons p rest ih =>
    obtain ⟨k0, v0⟩ := p
    by_cases hk : k0 = k
    · simp [dictHasKey, hk]
    · simp only [dictGet, if_neg hk] at h
      simp [dictHasKey, hk] at ih ⊢
      exact ih h

theorem dictGet_dictSet_self (d : PyDict) (k : String) (v : PyVal) :
    dictGet (dictSet d k v) k = some v := by
  induction d with
  | nil => simp [dictSet, dictGet]
  | cons p rest ih =>
    obtain ⟨k0, v0⟩ := p
    by_cases hk : k0 = k
    · simp [dictSet, dictGet, hk]
    · simp [dictSet, dictGet, hk, ih]

theorem dictHasKey_dictSet_self (d : PyDict) (k : String) (v : PyVal) :
    dictHasKey (dictSet d k v) k = true :=
  dictHasKey_of_get (dictGet_dictSet_self d k v)

theorem dictSet_dictSet_self (d : PyDict) (k : String) (v w : PyVal) :
    dictSet (dictSet d k v) k w = dictSet d k w := by
  induction d with
  | nil => simp [dictSet]
  | cons p rest ih =>
    obtain ⟨k0, v0⟩ := p
    by_cases hk : k0 = k
    · simp [dictSet, hk]
    · simp [dictSet, hk, ih]

theorem dictSet_of_get_self {d : PyDict} {k : String} {v : PyVal}
    (h : dictGet d k = some v) : dictSet d k v = d := by
  induction d with
  | nil => simp [dictGet] at h
  | cons p rest ih =>
    obtain ⟨k0, v0⟩ := p
    by_cases hk : k0 = k
    · simp only [dictGet, if_pos hk] at h
      injection h with h
      simp [dictSet, hk, h]
    · simp only [dictGet, if_neg hk] at h
      simp [dictSet, hk, ih h]

theorem takeWhile_of_all {p : Char → Bool} {l : List Char}
    (h : ∀ c ∈ l, p c = true) : l.takeWhile p = l := by
  induction l with
  | nil => simp
  | cons c cs ih =>
    simp only [List.takeWhile_cons, h c (by simp)]
    simp [ih (fun c hc => h c (by simp [hc]))]

theorem takeWhile_append_stop {p : Char → Bool} {l : List Char} (c' : Char)
    (r : List Char) (h : ∀ c ∈ l, p c = true) (hc' : p c' = false) :
    (l ++ c' :: r).takeWhile p = l := by
  induction l with
  | nil => simp [List.takeWhile_cons, hc']
  | cons c cs ih =>
    simp only [List.cons_append, List.takeWhile_cons, h c (by simp)]
    simp [ih (fun c hc => h c (by simp [hc]))]

theorem takeWhile_append_of_ne {p : Char → Bool} {l : List Char} (r : List Char)
    (h : l.takeWhile p ≠ l) : (l ++ r).takeWhile p = l.takeWhile p := by
  induction l with
  | nil => simp at h
  | cons c cs ih =>
    by_cases hc : p c
    · simp only [List.takeWhile_cons, hc, if_true] at h ⊢
      have : cs.takeWhile p ≠ cs := fun he => h (by rw [he])
      simp [List.cons_append, List.takeWhile_cons, hc, ih this]
    · simp [List.takeWhile_cons, hc] at h ⊢

theorem drop_takeWhile_length (p : Char → Bool) (l : List Char) :
    l.drop (l.takeWhile p).length = l.dropWhile p := by
  have h := List.takeWhile_append_dropWhile (p := p) (l := l)
  calc l.drop (l.takeWhile p).length
      = (l.takeWhile p ++ l.dropWhile p).drop (l.takeWhile p).length := by rw [h]
    _ = l.dropWhile p := List.drop_left _ _

theorem mem_of_isPrefixOf {l₁ l₂ : List Char} {c : Char}
    (h : l₁.isPrefixOf l₂ = true) (hc : c ∈ l₁) : c ∈ l₂ := by
  obtain ⟨t, rfl⟩ := List.isPrefixOf_iff_prefix.mp h
  exact List.mem_append_left t hc

theorem end_isPrefixOf_false {j : List Char} (hne : j ≠ ['e', 'n', 'd'])
    (hnb : ']' ∉ j) :
    (['e', 'n', 'd', ']'].isPrefixOf (j ++ [']'])) = false := by
  by_contra h
  simp only [Bool.not_eq_false] at h
  obtain ⟨t, ht⟩ := List.isPrefixOf_iff_prefix.mp h
  match j, ht with
  | [], ht => simp at ht
  | [c1], ht => simp at ht
  | [c1, c2], ht => simp at ht
  | [c1, c2, c3], ht =>
    simp at ht
    obtain ⟨h1, h2, h3, -⟩ := ht
    exact hne (by rw [← h1, ← h2, ← h3])
  | c1 :: c2 :: c3 :: c4 :: rest, ht =>
    simp at ht
    apply hnb
    simp
    exact Or.inr (Or.inr (Or.inr (Or.inl ht.2.2.2.1)))

theorem splitOnCharAux_of_all {sep : Char} {cs : List Char} (acc : List Char)
    (h : ∀ c ∈ cs, c ≠ sep) :
    splitOnCharAux sep cs acc = [String.mk (acc.reverse ++ cs)] := by
  induction cs generalizing acc with
  | nil => simp [splitOnCharAux]
  | cons c cs ih =>
    have hc : ¬ c = sep := h c (by simp)
    simp only [splitOnCharAux, if_neg hc]
    rw [ih (c :: acc) (fun c hc => h c (by simp [hc]))]
    simp

theorem splitOnChar_of_all {sep : Char} {s : String}
    (h : ∀ c ∈ s.toList, c ≠ sep) : splitOnChar sep s = [s] := by
  rw [splitOnChar, splitOnCharAux_of_all [] h]
  rfl

theorem stepOfToken_plain {k : String} (hk : k.toList ≠ [])
    (hkc : ∀ c ∈ k.toList, c ≠ '[') : stepOfToken k = some (k, none) := by
  have htw : k.toList.takeWhile (fun c => c ≠ '[') = k.toList :=
    takeWhile_of_all (fun c hc => by simp [hkc c hc])
  simp only [stepOfToken, htw, if_neg hk]
  rw [List.drop_length]
  rfl

theorem stepOfToken_junk_closed {k j : String} (hk : k.toList ≠ [])
    (hkc : ∀ c ∈ k.toList, c ≠ '[')
    (hj : ∀ c ∈ j.toList, c ≠ ']')
    (hdig : ¬(j.toList ≠ [] ∧ ∀ c ∈ j.toList, c.isDigit = true))
    (hend : j ≠ "end") :
    stepOfToken (k ++ "[" ++ j ++ "]") = some (k, none) := by
  have hcs : (k ++ "[" ++ j ++ "]").toList =
      k.toList ++ '[' :: (j.toList ++ [']']) := by
    show ((k.toList ++ ['[']) ++ j.toList) ++ [']'] = _
    simp
  have htw : ((k ++ "[" ++ j ++ "]").toList).takeWhile (fun c => c ≠ '[') =
      k.toList := by
    rw [hcs]
    exact takeWhile_append_stop _ _ (fun c hc => by simp [hkc c hc]) (by simp)
  have hdrop : ((k ++ "[" ++ j ++ "]").toList).drop k.toList.length =
      '[' :: (j.toList ++ [']']) := by
    rw [hcs]; exact List.drop_left _ _
  have hidx : idxOfRest ('[' :: (j.toList ++ [']'])) = none := by
    have hnum : ¬((j.toList ++ [']']).takeWhile Char.isDigit ≠ [] ∧
        (((j.toList ++ [']']).drop
          ((j.toList ++ [']']).takeWhile Char.isDigit).length).head? = some ']')) := by
      by_cases hall : ∀ c ∈ j.toList, c.isDigit = true
      · have hjnil : j.toList = [] := by
          by_contra hne
          exact hdig ⟨hne, hall⟩
        rw [hjnil]
        decide
      · push_neg at hall
        obtain ⟨c0, hc0m, hc0⟩ := hall
        have hne : j.toList.takeWhile Char.isDigit ≠ j.toList := by
          intro he
          have := List.mem_takeWhile_imp (l := j.toList) (p := Char.isDigit)
            (by rw [he]; exact hc0m)
          simp [hc0] at this
        have htw2 : (j.toList ++ [']']).takeWhile Char.isDigit =
            j.toList.takeWhile Char.isDigit := takeWhile_append_of_ne _ hne
        have hdw : j.toList.dropWhile Char.isDigit ≠ [] := by
          intro he
          apply hne
          have := List.takeWhile_append_dropWhile (p := Char.isDigit) (l := j.toList)
          rw [he, List.append_nil] at this
          exact this
        obtain ⟨c1, tl, hdw1⟩ := List.exists_cons_of_ne_nil hdw
        have hlen : (j.toList.takeWhile Char.isDigit).length ≤ j.toList.length :=
          (List.takeWhile_sublist _).length_le
        have hdrop2 : (j.toList ++ [']']).drop
            ((j.toList ++ [']']).takeWhile Char.isDigit).length =
            (c1 :: tl) ++ [']'] := by
          rw [htw2, List.drop_append_of_le_length hlen,
            drop_takeWhile_length, hdw1]
        have hc1mem : c1 ∈ j.toList :=
          (List.dropWhile_sublist _).subset
            (by rw [hdw1]; exact List.mem_cons_self _ _)
        intro hcon
        rw [hdrop2] at hcon
        simp at hcon
        exact hj c1 hc1mem hcon.2
    have hendpre : (['e', 'n', 'd', ']'].isPrefixOf (j.toList ++ [']'])) = false := by
      apply end_isPrefixOf_false
      · intro he
        apply hend
        have : String.mk j.toList = String.mk ['e', 'n', 'd'] := by rw [he]
        exact this
      · intro hmem
        exact hj ']' hmem rfl
    simp only [idxOfRest]
    rw [if_neg hnum, hendpre]
    simp
  simp only [stepOfToken, htw, if_neg hk, hdrop, hidx]
  rfl

theorem stepOfToken_junk_open {k j : String} (hk : k.toList ≠ [])
    (hkc : ∀ c ∈ k.toList, c ≠ '[')
    (hj : ∀ c ∈ j.toList, c ≠ ']') :
    stepOfToken (k ++ "[" ++ j) = some (k, none) := by
  have hcs : (k ++ "[" ++ j).toList = k.toList ++ '[' :: j.toList := by
    show (k.toList ++ ['[']) ++ j.toList = _
    simp
  have htw : ((k ++ "[" ++ j).toList).takeWhile (fun c => c ≠ '[') = k.toList := by
    rw [hcs]
    exact takeWhile_append_stop _ _ (fun c hc => by simp [hkc c hc]) (by simp)
  have hdrop : ((k ++ "[" ++ j).toList).drop k.toList.length = '[' :: j.toList := by
    rw [hcs]; exact List.drop_left _ _
  have hidx : idxOfRest ('[' :: j.toList) = none := by
    have hnum : ¬(j.toList.takeWhile Char.isDigit ≠ [] ∧
        ((j.toList.drop (j.toList.takeWhile Char.isDigit).length).head? =
          some ']')) := by
      rw [drop_takeWhile_length]
      intro hcon
      rcases hdw : j.toList.dropWhile Char.isDigit with _ | ⟨c1, tl⟩
      · rw [hdw] at hcon; simp at hcon
      · rw [hdw] at hcon
        have hc1mem : c1 ∈ j.toList :=
          (List.dropWhile_sublist _).subset
            (by rw [hdw]; exact List.mem_cons_self _ _)
        simp at hcon
        exact hj c1 hc1mem hcon.2
    have hendpre : (['e', 'n', 'd', ']'].isPrefixOf j.toList) = false := by
      by_contra h
      simp only [Bool.not_eq_false] at h
      exact hj ']' (mem_of_isPrefixOf h (by simp)) rfl
    simp only [idxOfRest]
    rw [if_neg hnum, hendpre]
    simp
  simp only [stepOfToken, htw, if_neg hk, hdrop, hidx]
  rfl

/-- C2: the claimed `MalformedLocation` failure does not happen on the code
at a concrete input: the location `a[x]` has an index that is neither
numeric nor `end`, yet applying `add` there succeeds — the bracket suffix is
silently dropped and the payload is stored under the bare key `a` — instead
of failing and aborting the apply. -/
theorem c2_malformed_counterexample :
    applyOperation [] "add" "a[x]" (.vstr "p") = some [("a", .vstr "p")] ∧
    some [("a", PyVal.vstr "p")] ≠ (none : Option PyDict) :=
  ⟨rfl, by simp⟩

/-- C2 (amended): path parsing never reports a malformed location.  A token
whose bracket suffix is not a well-formed `[N]`/`[end]` index — whether the
index is non-numeric and non-`end`, or the bracket is never closed — has the
suffix silently ignored and the operation is applied at the bare key exactly
as if the suffix were absent.  Only a location whose single token has no
parseable key (it starts with `[`) makes the whole apply fail (the source
raises `IndexError` on the empty step list), which aborts the batch. -/
theorem c2_malformed_amended :
    (∀ (d : PyDict) (op : String) (v : PyVal) (k j : String),
      k.toList ≠ [] → (∀ c ∈ k.toList, c ≠ '[' ∧ c ≠ '.') →
      (∀ c ∈ j.toList, c ≠ ']' ∧ c ≠ '.') →
      ¬(j.toList ≠ [] ∧ ∀ c ∈ j.toList, c.isDigit = true) → j ≠ "end" →
      applyOperation d op (k ++ "[" ++ j ++ "]") v = applyOperation d op k v)
    ∧ (∀ (d : PyDict) (op : String) (v : PyVal) (k j : String),
      k.toList ≠ [] → (∀ c ∈ k.toList, c ≠ '[' ∧ c ≠ '.') →
      (∀ c ∈ j.toList, c ≠ ']' ∧ c ≠ '.') →
      applyOperation d op (k ++ "[" ++ j) v = applyOperation d op k v)
    ∧ (∀ (d : PyDict) (op : String) (v : PyVal) (j : String),
      (∀ c ∈ j.toList, c ≠ '.') →
      applyOperation d op ("[" ++ j) v = none) := by
  refine ⟨?_, ?_, ?_⟩
  · intro d op v k j hk hkc hjc hdig hend
    have hsplit : splitOnChar '.' (k ++ "[" ++ j ++ "]") = [k ++ "[" ++ j ++ "]"] := by
      apply splitOnChar_of_all
      intro c hc
      have : (k ++ "[" ++ j ++ "]").toList =
          k.toList ++ '[' :: (j.toList ++ [']']) := by
        show ((k.toList ++ ['[']) ++ j.toList) ++ [']'] = _
        simp
      rw [this] at hc
      simp at hc
      rcases hc with hc | hc | hc | hc
      · exact (hkc c hc).2
      · simp [hc]
      · exact (hjc c hc).2
      · simp [hc]
    have hsplit2 : splitOnChar '.' k = [k] :=
      splitOnChar_of_all (fun c hc => (hkc c hc).2)
    have hstep := stepOfToken_junk_closed hk (fun c hc => (hkc c hc).1)
      (fun c hc => (hjc c hc).1) hdig hend
    have hstep2 := stepOfToken_plain hk (fun c hc => (hkc c hc).1)
    have hp1 : parseParts (k ++ "[" ++ j ++ "]") = [(k, none)] := by
      rw [parseParts, hsplit]
      simp [hstep]
    have hp2 : parseParts k = [(k, none)] := by
      rw [parseParts, hsplit2]
      simp [hstep2]
    rw [applyOperation, applyOperation, hp1, hp2]
  · intro d op v k j hk hkc hjc
    have hsplit : splitOnChar '.' (k ++ "[" ++ j) = [k ++ "[" ++ j] := by
      apply splitOnChar_of_all
      intro c hc
      have : (k ++ "[" ++ j).toList = k.toList ++ '[' :: j.toList := by
        show (k.toList ++ ['[']) ++ j.toList = _
        simp
      rw [this] at hc
      simp at hc
      rcases hc with hc | hc | hc
      · exact (hkc c hc).2
      · simp [hc]
      · exact (hjc c hc).2
    have hsplit2 : splitOnChar '.' k = [k] :=
      splitOnChar_of_all (fun c hc => (hkc c hc).2)
    have hstep := stepOfToken_junk_open hk (fun c hc => (hkc c hc).1)
      (fun c hc => (hjc c hc).1)
    have hstep2 := stepOfToken_plain hk (fun c hc => (hkc c hc).1)
    have hp1 : parseParts (k ++ "[" ++ j) = [(k, none)] := by
      rw [parseParts, hsplit]
      simp [hstep]
    have hp2 : parseParts k = [(k, none)] := by
      rw [parseParts, hsplit2]
      simp [hstep2]
    rw [applyOperation, applyOperation, hp1, hp2]
  · intro d op v j hj
    have hsplit : splitOnChar '.' ("[" ++ j) = ["[" ++ j] := by
      apply splitOnChar_of_all
      intro c hc
      have : ("[" ++ j).toList = '[' :: j.toList := by
        show ['['] ++ j.toList = _
        simp
      rw [this] at hc
      simp at hc
      rcases hc with hc | hc
      · simp [hc]
      · exact hj c hc
    have hstep : stepOfToken ("[" ++ j) = none := by
      have hcs : ("[" ++ j).toList = '[' :: j.toList := by
        show ['['] ++ j.toList = _
        simp
      simp [stepOfToken, hcs, List.takeWhile_cons]
    have hp : parseParts ("[" ++ j) = [] := by
      rw [parseParts, hsplit]
      simp [hstep]
    rw [applyOperation, hp]

/-- C2 witness: the amended behaviour evaluated at concrete locations — a
junk index `a[x]`, an unbalanced bracket `a[1`, and a keyless token `[0]`. -/
theorem c2_malformed_witness :
    applyOperation [] "add" ("a" ++ "[" ++ "x" ++ "]") (PyVal.vstr "p") =
      applyOperation [] "add" "a" (PyVal.vstr "p") ∧
    applyOperation [] "add" ("a" ++ "[" ++ "1") (PyVal.vstr "p") =
      applyOperation [] "add" "a" (PyVal.vstr "p") ∧
    applyOperation [] "add" ("[" ++ "0") (PyVal.vstr "p") = none :=
  ⟨c2_malformed_amended.1 [] "add" (PyVal.vstr "p") "a" "x" (by decide)
      (by decide) (by decide) (by decide) (by decide),
    c2_malformed_amended.2.1 [] "add" (PyVal.vstr "p") "a" "1" (by decide)
      (by decide) (by decide),
    c2_malformed_amended.2.2 [] "add" (PyVal.vstr "p") "0" (by decide)⟩

/-- C1: the claimed Add-then-Delete round trip fails on the code at a
concrete input: on the empty document, `add` at `a[5]` is claimed to be a
no-op (out-of-range index), but the code auto-creates an empty list at key
`a`, and the subsequent `delete` at `a[5]` does not remove it, so the
document is not unchanged.  Two further failure modes refute the general
round trip: `add` at a bare key overwrites an existing value, which
`delete` then removes entirely; and `add` at `[end]` appends while `delete`
at `[end]` is a no-op. -/
theorem c1_roundTrip_counterexample :
    ((applyOperation [] "add" "a[5]" (.vstr "x")).bind
        (fun d1 => applyOperation d1 "delete" "a[5]" (.vstr "x")) =
          some [("a", .vlist [])]
      ∧ ([("a", PyVal.vlist [])] : PyDict) ≠ [])
    ∧ ((applyOperation [("a", .vstr "old")] "add" "a" (.vstr "new")).bind
        (fun d1 => applyOperation d1 "delete" "a" (.vstr "new")) = some []
      ∧ ([] : PyDict) ≠ [("a", PyVal.vstr "old")])
    ∧ ((applyOperation [("a", .vlist [])] "add" "a[end]" (.vstr "x")).bind
        (fun d1 => applyOperation d1 "delete" "a[end]" (.vstr "x")) =
          some [("a", .vlist [.vstr "x"])]
      ∧ ([("a", PyVal.vlist [PyVal.vstr "x"])] : PyDict) ≠ [("a", PyVal.vlist [])]) :=
  ⟨⟨rfl, by simp⟩, ⟨rfl, by simp⟩, ⟨rfl, by simp⟩⟩

/-- C1 (amended): the Add-then-Delete round trip holds for a single-step
path `key[N]` with a numeric index whose key already maps to a list in the
document: when `N ≤ len` the insert is undone by the delete, and when
`N > len` both operations are no-ops, so the document comes back unchanged
in both cases. -/
theorem c1_roundTrip_amended (d : PyDict) (k loc : String) (n : Nat)
    (l : List PyVal) (v : PyVal)
    (hloc : parseParts loc = [(k, some (Idx.iNum n))])
    (hget : dictGet d k = some (.vlist l)) :
    (applyOperation d "add" loc v).bind
      (fun d1 => applyOperation d1 "delete" loc v) = some d := by
  have hhk : dictHasKey d k = true := dictHasKey_of_get hget
  by_cases hn : n ≤ l.length
  · have hadd : applyOperation d "add" loc v =
        some (dictSet d k (.vlist (l.insertIdx n v))) := by
      simp [applyOperation, hloc, applyParts, applyLast, hhk, hget, pyLen, hn]
    have hlen : (l.insertIdx n v).length = l.length + 1 :=
      List.length_insertIdx n l hn
    have hdel : applyOperation (dictSet d k (.vlist (l.insertIdx n v)))
        "delete" loc v = some d := by
      have hget' : dictGet (dictSet d k (.vlist (l.insertIdx n v))) k =
          some (.vlist (l.insertIdx n v)) := dictGet_dictSet_self ..
      have hn' : n < (l.insertIdx n v).length := by omega
      simp [applyOperation, hloc, applyParts, applyLast, pyContains,
        dictHasKey_dictSet_self, hget', hn', List.eraseIdx_insertIdx,
        dictSet_dictSet_self, dictSet_of_get_self hget]
    rw [hadd]; exact hdel
  · have hadd : applyOperation d "add" loc v = some d := by
      simp [applyOperation, hloc, applyParts, applyLast, hhk, hget, pyLen, hn]
    have hdel : applyOperation d "delete" loc v = some d := by
      have hn' : ¬ n < l.length := by omega
      simp [applyOperation, hloc, applyParts, applyLast, pyContains, hhk,
        hget, hn']
    rw [hadd]; exact hdel

/-- C1 witness: the amended round trip evaluated at a concrete document,
path and payload. -/
theorem c1_roundTrip_witness :
    parseParts "a[0]" = [("a", some (Idx.iNum 0))] ∧
    dictGet [("a", PyVal.vlist [PyVal.vstr "x"])] "a" =
      some (PyVal.vlist [PyVal.vstr "x"]) ∧
    (applyOperation [("a", PyVal.vlist [PyVal.vstr "x"])] "add" "a[0]"
        (PyVal.vstr "y")).bind
      (fun d1 => applyOperation d1 "delete" "a[0]" (PyVal.vstr "y")) =
        some [("a", PyVal.vlist [PyVal.vstr "x"])] :=
  ⟨by decide, rfl,
    c1_roundTrip_amended _ "a" "a[0]" 0 [PyVal.vstr "x"] (PyVal.vstr "y")
      (by decide) rfl⟩

theorem tryCloseAnchor_some {cs ds : List Char} (h : tryCloseAnchor cs = some ds) :
    ∃ r, ds ≠ [] ∧ (∀ c ∈ ds, c.isDigit = true) ∧
      cs = ')' :: '[' :: (ds ++ ']' :: r) := by
  rw [tryCloseAnchor.eq_def] at h
  split at h
  case _ rest =>
    by_cases hc : rest.takeWhile Char.isDigit ≠ [] ∧
        ((rest.drop (rest.takeWhile Char.isDigit).length).head? = some ']')
    · simp only at h
      rw [if_pos hc] at h
      injection h with h
      subst h
      obtain ⟨hne, hhead⟩ := hc
      rw [drop_takeWhile_length] at hhead
      obtain ⟨r, hr⟩ : ∃ r, rest.dropWhile Char.isDigit = ']' :: r := by
        cases hdwe : rest.dropWhile Char.isDigit with
        | nil => rw [hdwe] at hhead; simp at hhead
        | cons a as =>
          rw [hdwe] at hhead
          simp at hhead
          exact ⟨as, by rw [hhead]⟩
      refine ⟨r, hne, ?_, ?_⟩
      · intro c hcm
        exact List.mem_takeWhile_imp hcm
      · have := List.takeWhile_append_dropWhile (p := Char.isDigit) (l := rest)
        rw [hr] at this
        exact congrArg (fun l => ')' :: '[' :: l) this.symm
    · simp only at h
      rw [if_neg hc] at h
      cases h
  case _ => cases h

theorem scanAnchorAux_some : ∀ (rest acc t ds : List Char),
    scanAnchorAux rest acc = some (t, ds) →
    ∃ u r, t = acc.reverse ++ u ∧ (∀ c ∈ u, c ≠ '\n') ∧
      (acc = [] → u ≠ []) ∧ ds ≠ [] ∧ (∀ c ∈ ds, c.isDigit = true) ∧
      rest = u ++ ')' :: '[' :: (ds ++ ']' :: r) := by
  intro rest
  induction rest with
  | nil => intro acc t ds h; simp [scanAnchorAux] at h
  | cons c cs ih =>
    intro acc t ds h
    simp only [scanAnchorAux] at h
    rcases hclose : (if acc.isEmpty then none else tryCloseAnchor (c :: cs)) with
      _ | ds0
    · rw [hclose] at h
      by_cases hcn : c = '\n'
      · rw [if_pos hcn] at h; cases h
      · rw [if_neg hcn] at h
        obtain ⟨u', r, ht, hu, -, hds, hdig, hrest⟩ := ih (c :: acc) t ds h
        refine ⟨c :: u', r, ?_, ?_, fun _ => by simp, hds, hdig, by simp [hrest]⟩
        · rw [ht]; simp
        · intro c' hc'
          rcases List.mem_cons.mp hc' with hc' | hc'
          · rw [hc']; exact hcn
          · exact hu c' hc'
    · rw [hclose] at h
      injection h with h
      have h1 : t = acc.reverse := (congrArg Prod.fst h).symm
      have h2 : ds = ds0 := (congrArg Prod.snd h).symm
      subst h1
      subst h2
      have hae : ¬ acc.isEmpty := by
        intro hcon
        rw [if_pos hcon] at hclose
        cases hclose
      rw [if_neg hae] at hclose
      obtain ⟨r, hds, hdig, hcs⟩ := tryCloseAnchor_some hclose
      refine ⟨[], r, by simp, by simp, ?_, hds, hdig, by simpa using hcs⟩
      intro hcon
      rw [hcon] at hae
      simp at hae

/-- C10: the claim is false on the code at a concrete input: `"(a)[0]"` is
not of the form `(text)[n]` with a positive `n`, yet the parser does not
fall back to the whole string with occurrence 1 — it accepts the
occurrence `0` and returns `("a", 0)`. -/
theorem c10_anchor_counterexample :
    parseLocationPattern "(a)[0]" = ("a", 0) ∧
    (("a", 0) : String × Nat) ≠ ("(a)[0]", 1) :=
  ⟨rfl, by simp⟩

/-- C10 (amended): anchor parsing is total and never rejects its input:
every anchor string that does not begin with a prefix of the form
`(` text `)[` digits `]` — with nonempty newline-free text and a nonempty
digit run of any value, including zero — is treated as a literal pattern
(the whole string) with occurrence 1. -/
theorem c10_anchor_amended (s : String) (hsh : ¬ AnchorShape s) :
    parseLocationPattern s = (s, 1) := by
  rw [parseLocationPattern.eq_def]
  split
  · rename_i rest hs
    split
    · rename_i t ds hscan
      exfalso
      apply hsh
      obtain ⟨u, r, ht, hu, hune, hds, hdig, hrest⟩ :=
        scanAnchorAux_some rest [] t ds hscan
      have hune' : u ≠ [] := hune rfl
      have h1 : s.toList = '(' :: (u ++ ')' :: '[' :: (ds ++ ']' :: r)) := by
        rw [hs, hrest]
      have h2 : s.toList.drop (1 + u.length) = ')' :: '[' :: (ds ++ ']' :: r) := by
        rw [h1, Nat.add_comm 1 u.length, List.drop_succ_cons]
        exact List.drop_left _ _
      have h3 : s.toList.drop (3 + u.length) = ds ++ ']' :: r := by
        have hd : (s.toList.drop (1 + u.length)).drop 2 =
            s.toList.drop (3 + u.length) := by
          rw [List.drop_drop]
          congr 1
          omega
        rw [← hd, h2]
        simp
      have h4 : s.toList.drop (3 + u.length + ds.length) = ']' :: r := by
        have hd : (s.toList.drop (3 + u.length)).drop ds.length =
            s.toList.drop (3 + u.length + ds.length) := by
          rw [List.drop_drop]
        rw [← hd, h3]
        exact List.drop_left _ _
      have hlen : s.toList.length =
          u.length + ds.length + r.length + 4 := by
        rw [h1]
        simp only [List.length_cons, List.length_append]
        omega
      refine ⟨u.length, ?_, ds.length, ?_, ?_, ?_, ?_, ?_, ?_, ?_, ?_⟩
      · simp only [List.mem_range]; omega
      · simp only [List.mem_range]; omega
      · have := List.length_pos.mpr hune'; omega
      · have := List.length_pos.mpr hds; omega
      · rw [h1]; rfl
      · rw [h1, List.drop_succ_cons, List.drop_zero, List.take_left,
          List.all_eq_true]
        intro c hc
        simpa using hu c hc
      · rw [h2]; rfl
      · rw [h3, List.take_left, List.all_eq_true]
        intro c hc
        simpa using hdig c hc
      · rw [h4]; rfl
    · rfl
  · rfl

/-- C10 witness: the amended fallback evaluated at a concrete anchor string
that the regexp does not match. -/
theorem c10_anchor_witness :
    ¬ AnchorShape "@enduml" ∧ parseLocationPattern "@enduml" = ("@enduml", 1) :=
  ⟨by decide, c10_anchor_amended "@enduml" (by decide)⟩

theorem matchPositions_length (p : String → Bool) :
    ∀ (ls : List String) (i : Nat),
      (matchPositions p ls i).length = ls.countP p := by
  intro ls
  induction ls with
  | nil => intro i; simp [matchPositions]
  | cons l ls ih =>
    intro i
    by_cases hp : p l <;> simp [matchPositions, hp, ih, List.countP_cons]

theorem findLineAux_eq_getElem (p : String → Bool) :
    ∀ (ls : List String) (i count occ : Nat), count < occ →
      findLineAux p occ ls i count =
        (matchPositions p ls i)[occ - count - 1]? := by
  intro ls
  induction ls with
  | nil => intro i count occ _; simp [findLineAux, matchPositions]
  | cons l ls ih =>
    intro i count occ hlt
    by_cases hp : p l
    · by_cases he : count + 1 = occ
      · have h0 : occ - count - 1 = 0 := by omega
        simp [findLineAux, matchPositions, hp, he, h0]
      · have hlt' : count + 1 < occ := by omega
        have hs : occ - count - 1 = (occ - (count + 1) - 1) + 1 := by omega
        simp only [findLineAux, matchPositions, hp, if_true, if_neg he]
        rw [ih (i + 1) (count + 1) occ hlt', hs, List.getElem?_cons_succ]
    · simp only [findLineAux, matchPositions, hp, if_false]
      exact ih (i + 1) count occ hlt

theorem findLineIndex_eq_linePred (lines : List String) (pat : String)
    (occ : Nat) :
    findLineIndex lines pat occ = findLineAux (linePred pat) occ lines 0 0 := by
  by_cases hp : pat = "EMPTY_LINE"
  · subst hp
    have he : linePred "EMPTY_LINE" = isBlankLine := funext fun line => by
      simp [linePred]
    simp [findLineIndex, he]
  · have he : linePred pat = lineContains pat := funext fun line => by
      simp [linePred, hp]
    simp [findLineIndex, hp, he]

theorem findLineAux_none (p : String → Bool) :
    ∀ (ls : List String) (i count occ : Nat), (∀ l ∈ ls, p l = false) →
      findLineAux p occ ls i count = none := by
  intro ls
  induction ls with
  | nil => intro i count occ _; simp [findLineAux]
  | cons l ls ih =>
    intro i count occ h
    have h0 : p l = false := h l (by simp)
    simp only [findLineAux, h0, if_false]
    exact ih (i + 1) count occ (fun l hl => h l (by simp [hl]))

theorem splitOnCharAux_ne_nil (sep : Char) :
    ∀ (cs acc : List Char), splitOnCharAux sep cs acc ≠ [] := by
  intro cs
  induction cs with
  | nil => intro acc; simp [splitOnCharAux]
  | cons c cs ih =>
    intro acc
    by_cases hc : c = sep <;> simp [splitOnCharAux, hc, ih]

theorem splitOnChar_ne_nil (sep : Char) (s : String) :
    splitOnChar sep s ≠ [] :=
  splitOnCharAux_ne_nil sep s.toList []

theorem isPrefixOf_nil_false {bl : List String} (h : bl ≠ []) :
    (bl.isPrefixOf ([] : List String)) = false := by
  cases bl with
  | nil => simp at h
  | cons b bs => rfl

theorem removeFirstBlock_none {bl : List String} :
    ∀ ls : List String, bl ≠ [] →
      (∀ i < ls.length, (bl.isPrefixOf (ls.drop i)) = false) →
      removeFirstBlock bl ls = none := by
  intro ls
  induction ls with
  | nil =>
    intro hbl _
    simp [removeFirstBlock, isPrefixOf_nil_false hbl]
  | cons l ls ih =>
    intro hbl h
    have h0 : (bl.isPrefixOf (l :: ls)) = false := by
      have := h 0 (by simp)
      simpa using this
    simp only [removeFirstBlock, h0, Bool.false_eq_true, if_false]
    rw [ih hbl (fun i hi => by simpa using h (i + 1) (by simpa using hi))]
    rfl

/-- C6: for every list of lines and every anchor occurrence `n ≥ 1`,
`_find_line_index` returns the 0-indexed position of the `n`-th line
matching the pattern — a line whose trimmed content is empty in
`EMPTY_LINE` sentinel mode, a line containing the pattern as a literal
substring otherwise — and `-1` (modelled `none`) exactly when the document
has fewer than `n` matches. -/
theorem c6_findLineIndex_correct (lines : List String) (pattern : String)
    (occ : Nat) (hocc : 1 ≤ occ) :
    findLineIndex lines pattern occ =
      (matchPositions (linePred pattern) lines 0)[occ - 1]? ∧
    (matchPositions (linePred pattern) lines 0).length =
      lines.countP (linePred pattern) ∧
    (findLineIndex lines pattern occ = none ↔
      lines.countP (linePred pattern) < occ) := by
  have h1 : findLineIndex lines pattern occ =
      (matchPositions (linePred pattern) lines 0)[occ - 1]? := by
    rw [findLineIndex_eq_linePred,
      findLineAux_eq_getElem (linePred pattern) lines 0 0 occ (by omega)]
    norm_num
  have h2 := matchPositions_length (linePred pattern) lines 0
  refine ⟨h1, h2, ?_⟩
  rw [h1, List.getElem?_eq_none_iff, h2]
  omega

/-- C6 witness: the locate contract evaluated on a concrete document with
two matches of the pattern. -/
theorem c6_findLineIndex_witness :
    findLineIndex ["ab", "c", "xaby"] "ab" 2 =
      (matchPositions (linePred "ab") ["ab", "c", "xaby"] 0)[1]? ∧
    findLineIndex ["ab", "c", "xaby"] "ab" 2 = some 2 ∧
    findLineIndex ["ab", "c", "xaby"] "ab" 3 = none :=
  ⟨(c6_findLineIndex_correct ["ab", "c", "xaby"] "ab" 2 (by decide)).1,
    by decide, by decide⟩

/-- C3: the Text Patcher absorbs anchor and block misses.  An `add` whose
`after` anchor matches no line appends the payload at the end of the
document (`code + "\n" + block`), and a `delete` whose payload lines do not
occur contiguously in the document returns the document byte-for-byte
unchanged; neither raises (the model is a total function). -/
theorem c3_text_mises_absorbed :
    (∀ code after before block : String,
      (∀ line ∈ splitOnChar '\n' code,
        linePred (parseLocationPattern after).1 line = false) →
      applyTextOperation code "add" after before block =
        code ++ "\n" ++ block)
    ∧ (∀ code after before block : String,
      (∀ i < (splitOnChar '\n' code).length,
        ((splitOnChar '\n' block).isPrefixOf
          ((splitOnChar '\n' code).drop i)) = false) →
      applyTextOperation code "delete" after before block = code) := by
  constructor
  · intro code after before block h
    have hnone : findLineIndex (splitOnChar '\n' code)
        (parseLocationPattern after).1 (parseLocationPattern after).2 = none := by
      rw [findLineIndex_eq_linePred]
      exact findLineAux_none _ _ 0 0 _ h
    simp [applyTextOperation, hnone]
  · intro code after before block h
    have hbl : splitOnChar '\n' block ≠ [] := splitOnChar_ne_nil '\n' block
    have hnone : removeFirstBlock (splitOnChar '\n' block)
        (splitOnChar '\n' code) = none :=
      removeFirstBlock_none _ hbl h
    simp [applyTextOperation, hnone]

/-- C3 witness: a missing `after` anchor appends, and a missing block leaves
the document unchanged, on concrete documents. -/
theorem c3_text_mises_witness :
    applyTextOperation "a\nb" "add" "(zzz)[1]" "(b)[1]" "c" = "a\nb" ++ "\n" ++ "c" ∧
    applyTextOperation "a\nb" "delete" "" "" "x" = "a\nb" :=
  ⟨c3_text_mises_absorbed.1 "a\nb" "(zzz)[1]" "(b)[1]" "c" (by decide),
    c3_text_mises_absorbed.2 "a\nb" "" "" "x" (by decide)⟩

/-- C8: when the `after` anchor locates line `i`, a text `add` inserts the
payload immediately after that line, and the result is the same for every
`before` anchor (which is located but never used), including one matching
no line. -/
theorem c8_add_after_insertion (code after block : String) (i : Nat)
    (h : findLineIndex (splitOnChar '\n' code) (parseLocationPattern after).1
      (parseLocationPattern after).2 = some i) :
    ∀ before : String,
      applyTextOperation code "add" after before block =
        joinLines ((splitOnChar '\n' code).insertIdx (i + 1) block) := by
  intro before
  simp [applyTextOperation, h]

/-- C8 witness: the insertion contract evaluated on the concrete PlantUML
document of the spec's scenario C, with a `before` anchor present. -/
theorem c8_add_after_insertion_witness :
    findLineIndex (splitOnChar '\n' "@startuml\nclass A \x7b\n\x7d\n@enduml")
        (parseLocationPattern "(class A \x7b)[1]").1
        (parseLocationPattern "(class A \x7b)[1]").2 = some 1 ∧
    applyTextOperation "@startuml\nclass A \x7b\n\x7d\n@enduml" "add"
        "(class A \x7b)[1]" "(@enduml)[1]" "  +field" =
      joinLines ((splitOnChar '\n' "@startuml\nclass A \x7b\n\x7d\n@enduml").insertIdx
        2 "  +field") :=
  ⟨by decide,
    c8_add_after_insertion "@startuml\nclass A \x7b\n\x7d\n@enduml"
      "(class A \x7b)[1]" "  +field" 1 (by decide) "(@enduml)[1]"⟩

theorem retryGo_exhaust {St : Type} (produce : Nat → Except String St)
    (vf : St → Bool × String) :
    ∀ (r a : Nat) (lastErr lastVal : Option String),
      (∀ n, a ≤ n → n < a + (r + 1) → attemptFailsB produce vf n = true) →
      retryGo produce (some vf) (r + 1) a lastErr lastVal =
        .exhausted (a + r) (some (lastErrSpec produce vf (a + r)))
          (orElseO (lastValFrom produce vf a (r + 1)) lastVal) := by
  intro r
  induction r with
  | zero =>
    intro a _lastErr lastVal h
    have ha := h a (by omega) (by omega)
    rcases hp : produce a with e | st
    · simp [retryGo, hp, lastErrSpec, lastValFrom, orElseO]
    · have hvf : (vf st).1 = false := by
        simpa [attemptFailsB, hp] using ha
      simp [retryGo, hp, hvf, lastErrSpec, lastValFrom, orElseO]
  | succ r ih =>
    intro a lastErr lastVal h
    have ha := h a (by omega) (by omega)
    have hnext : ∀ n, a + 1 ≤ n → n < (a + 1) + (r + 1) →
        attemptFailsB produce vf n = true :=
      fun n h1 h2 => h n (by omega) (by omega)
    have harith : (a + 1) + r = a + (r + 1) := by omega
    rcases hp : produce a with e | st
    · rw [show retryGo produce (some vf) (r + 1 + 1) a lastErr lastVal =
          retryGo produce (some vf) (r + 1) (a + 1) (some e) lastVal from by
            simp [retryGo, hp]]
      rw [ih (a + 1) (some e) lastVal hnext, harith]
      have hval : orElseO (lastValFrom produce vf a (r + 1 + 1)) lastVal =
          orElseO (lastValFrom produce vf (a + 1) (r + 1)) lastVal := by
        show orElseO (match lastValFrom produce vf (a + 1) (r + 1) with
          | some m => some m
          | none => match produce a with
            | .ok st => some (vf st).2
            | .error _ => none) lastVal = _
        rcases lastValFrom produce vf (a + 1) (r + 1) with _ | m
        · simp [hp, orElseO]
        · simp [orElseO]
      rw [hval]
    · have hvf : (vf st).1 = false := by
        simpa [attemptFailsB, hp] using ha
      rw [show retryGo produce (some vf) (r + 1 + 1) a lastErr lastVal =
          retryGo produce (some vf) (r + 1) (a + 1)
            (some ("Validation failed: " ++ (vf st).2)) (some (vf st).2) from by
            simp [retryGo, hp, hvf]]
      rw [ih (a + 1) _ _ hnext, harith]
      have hval : orElseO (lastValFrom produce vf a (r + 1 + 1)) lastVal =
          orElseO (lastValFrom produce vf (a + 1) (r + 1)) (some ((vf st).2)) := by
        show orElseO (match lastValFrom produce vf (a + 1) (r + 1) with
          | some m => some m
          | none => match produce a with
            | .ok st => some (vf st).2
            | .error _ => none) lastVal = _
        rcases lastValFrom produce vf (a + 1) (r + 1) with _ | m
        · simp [hp, orElseO]
        · simp [orElseO]
      rw [hval]

theorem retryGo_ok {St : Type} (produce : Nat → Except String St)
    (vf : St → Bool × String) :
    ∀ (r a : Nat) (lastErr lastVal : Option String) (k : Nat) (st : St),
      a ≤ k → k < a + r →
      (∀ n, a ≤ n → n < k → attemptFailsB produce vf n = true) →
      produce k = .ok st → (vf st).1 = true →
      retryGo produce (some vf) r a lastErr lastVal = .ok k st := by
  intro r
  induction r with
  | zero => intro a _ _ k _ h1 h2 _ _ _; omega
  | succ r ih =>
    intro a lastErr lastVal k st h1 h2 hfail hk hvf
    by_cases hak : k = a
    · subst hak
      simp [retryGo, hk, hvf]
    · have ha := hfail a (by omega) (by omega)
      rcases hp : produce a with e | st'
      · rw [show retryGo produce (some vf) (r + 1) a lastErr lastVal =
            retryGo produce (some vf) r (a + 1) (some e) lastVal from by
              simp [retryGo, hp]]
        exact ih (a + 1) _ _ k st (by omega) (by omega)
          (fun n hn1 hn2 => hfail n (by omega) hn2) hk hvf
      · have hvf' : (vf st').1 = false := by
          simpa [attemptFailsB, hp] using ha
        rw [show retryGo produce (some vf) (r + 1) a lastErr lastVal =
            retryGo produce (some vf) r (a + 1)
              (some ("Validation failed: " ++ (vf st').2)) (some ((vf st').2))
            from by simp [retryGo, hp, hvf']]
        exact ih (a + 1) _ _ k st (by omega) (by omega)
          (fun n hn1 hn2 => hfail n (by omega) hn2) hk hvf

/-- C5: when every attempt fails (by raising or by failing validation) the
retry executor performs exactly `max_retries` attempts and then fails with
an aggregate error carrying the last raised error (`lastErrSpec` of the
final attempt) and the last validation reason; an attempt whose result
passes validation is returned immediately, and no further attempt runs. -/
theorem c5_retry_contract (St : Type) :
    (∀ (produce : Nat → Except String St) (vf : St → Bool × String)
        (maxRetries : Nat), 1 ≤ maxRetries →
      (∀ n < maxRetries, attemptFailsB produce vf (n + 1) = true) →
      retryOnFailure produce (some vf) maxRetries =
        .exhausted maxRetries (some (lastErrSpec produce vf maxRetries))
          (lastValFrom produce vf 1 maxRetries))
    ∧ (∀ (produce : Nat → Except String St) (vf : St → Bool × String)
        (maxRetries k : Nat) (st : St), 1 ≤ k → k ≤ maxRetries →
      (∀ n < k - 1, attemptFailsB produce vf (n + 1) = true) →
      produce k = .ok st → (vf st).1 = true →
      retryOnFailure produce (some vf) maxRetries = .ok k st) := by
  constructor
  · intro produce vf maxRetries hmax h
    obtain ⟨r, rfl⟩ : ∃ r, maxRetries = r + 1 :=
      ⟨maxRetries - 1, by omega⟩
    rw [retryOnFailure, retryGo_exhaust produce vf r 1 none none
      (fun n h1 h2 => by
        have := h (n - 1) (by omega)
        simpa [show n - 1 + 1 = n from by omega] using this)]
    have h1r : 1 + r = r + 1 := by omega
    rw [h1r]
    rcases hl : lastValFrom produce vf 1 (r + 1) with _ | m
    · simp [orElseO]
    · simp [orElseO]
  · intro produce vf maxRetries k st h1 h2 hfail hk hvf
    exact retryGo_ok produce vf maxRetries 1 none none k st (by omega)
      (by omega)
      (fun n hn1 hn2 => by
        have := hfail (n - 1) (by omega)
        simpa [show n - 1 + 1 = n from by omega] using this)
      hk hvf

/-- C5 witness: a produce that always raises exhausts exactly 3 attempts
carrying the last error, and a produce that succeeds on attempt 2 returns
immediately. -/
theorem c5_retry_witness :
    retryOnFailure (fun n => (Except.error (Nat.repr n) : Except String String))
        (some (fun _ => (false, "bad"))) 3 =
      .exhausted 3
        (some (@lastErrSpec String (fun n => Except.error (Nat.repr n))
          (fun _ => (false, "bad")) 3))
        (@lastValFrom String (fun n => Except.error (Nat.repr n))
          (fun _ => (false, "bad")) 1 3) ∧
    @lastErrSpec String (fun n => Except.error (Nat.repr n))
        (fun _ => (false, "bad")) 3 = "3" ∧
    @lastValFrom String (fun n => Except.error (Nat.repr n))
        (fun _ => (false, "bad")) 1 3 = none ∧
    retryOnFailure
        (fun n => if n = 2 then Except.ok "doc" else (Except.error "e" : Except String String))
        (some (fun _ => (true, ""))) 3 = .ok 2 "doc" :=
  ⟨(c5_retry_contract String).1 (fun n => Except.error (Nat.repr n))
      (fun _ => (false, "bad")) 3 (by decide) (by decide),
    rfl, rfl,
    (c5_retry_contract String).2
      (fun n => if n = 2 then Except.ok "doc" else Except.error "e")
      (fun _ => (true, "")) 3 2 "doc" (by decide) (by decide) (by decide)
      rfl rfl⟩

theorem jsonWs_pyWs {c : Char} (h : isJsonWs c = true) : isPyWs c = true := by
  simp only [isJsonWs, Bool.or_eq_true, decide_eq_true_eq] at h
  rcases h with ((h | h) | h) | h <;> subst h <;> rfl

theorem head_dropWhile_false {p : Char → Bool} :
    ∀ {l : List Char} {c : Char}, ((l.dropWhile p).head? = some c) →
      p c = false := by
  intro l
  induction l with
  | nil => intro c h; simp at h
  | cons a as ih =>
    intro c h
    by_cases hp : p a
    · rw [List.dropWhile_cons, if_pos hp] at h
      exact ih h
    · rw [List.dropWhile_cons, if_neg hp] at h
      simp at h
      rw [← h]
      exact Bool.eq_false_iff.mpr hp

theorem dropWhile_pyWs_skipWs :
    ∀ l : List Char, l.dropWhile isPyWs = (skipWs l).dropWhile isPyWs := by
  intro l
  induction l with
  | nil => rfl
  | cons c cs ih =>
    by_cases hj : isJsonWs c
    · have hp : isPyWs c = true := jsonWs_pyWs hj
      rw [show skipWs (c :: cs) = skipWs cs from by
          simp [skipWs, List.dropWhile_cons, hj],
        List.dropWhile_cons, if_pos hp]
      exact ih
    · rw [show skipWs (c :: cs) = c :: cs from by
          simp [skipWs, List.dropWhile_cons, hj]]

theorem pyStrip_head {s : String} {c : Char} (h : (pyStrip s).head? = some c) :
    (s.toList.dropWhile isPyWs).head? = some c := by
  unfold pyStrip at h
  have hdecomp := List.takeWhile_append_dropWhile (p := isPyWs)
    (l := (s.toList.dropWhile isPyWs).reverse)
  cases hwr : ((s.toList.dropWhile isPyWs).reverse.dropWhile isPyWs).reverse with
  | nil => rw [hwr] at h; simp at h
  | cons c0 ws =>
    rw [hwr] at h
    simp at h
    have hu : s.toList.dropWhile isPyWs =
        ((s.toList.dropWhile isPyWs).reverse.dropWhile isPyWs).reverse ++
          ((s.toList.dropWhile isPyWs).reverse.takeWhile isPyWs).reverse := by
      have h2 := congrArg List.reverse hdecomp
      rw [List.reverse_append, List.reverse_reverse] at h2
      exact h2.symm
    rw [hu, hwr]
    simp [h]

theorem pyWs_not_jsonWs_cases {c : Char} (h1 : isPyWs c = true)
    (h2 : isJsonWs c = false) : c = '\x0b' ∨ c = '\x0c' := by
  simp only [isPyWs, Bool.or_eq_true, decide_eq_true_eq] at h1
  rcases h1 with ((((h | h) | h) | h) | h) | h <;> subst h <;>
    simp_all [isJsonWs]

theorem parseJValue_none_of_ws_start {f : Nat} {cs : List Char} {c0 : Char}
    {m : List Char} (hm : skipWs cs = c0 :: m)
    (h0 : c0 = '\x0b' ∨ c0 = '\x0c') : parseJValue f cs = none := by
  cases f with
  | zero => rfl
  | succ f =>
    rcases h0 with h0 | h0 <;> subst h0 <;> simp [parseJValue, hm]

theorem jsonLoads_skipWs_head {s : String} {v : PyVal} {c : Char}
    (hh : (pyStrip s).head? = some c) (h : jsonLoads s = some v) :
    (skipWs s.toList).head? = some c := by
  have hu : (s.toList.dropWhile isPyWs).head? = some c := pyStrip_head hh
  rw [dropWhile_pyWs_skipWs] at hu
  cases hm : skipWs s.toList with
  | nil => rw [hm] at hu; simp at hu
  | cons c0 m =>
    rw [hm] at hu
    have hc0j : isJsonWs c0 = false := by
      have hj : ((s.toList).dropWhile isJsonWs).head? = some c0 := by
        rw [show (s.toList).dropWhile isJsonWs = skipWs s.toList from rfl, hm]
        rfl
      exact head_dropWhile_false hj
    by_cases hc0p : isPyWs c0
    · exfalso
      have hbad := parseJValue_none_of_ws_start (f := s.length + 1) hm
        (pyWs_not_jsonWs_cases hc0p hc0j)
      rw [jsonLoads, hbad] at h
      cases h
    · rw [List.dropWhile_cons, if_neg hc0p] at hu
      exact hu

theorem parseJValue_obj {f : Nat} {cs : List Char} {v : PyVal}
    {rest : List Char} (h : parseJValue f cs = some (v, rest))
    (hh : (skipWs cs).head? = some '{') : v.isDict = true := by
  cases f with
  | zero => simp [parseJValue] at h
  | succ f =>
    cases hm : skipWs cs with
    | nil => rw [hm] at hh; simp at hh
    | cons c0 m =>
      rw [hm] at hh
      simp at hh
      subst hh
      simp only [parseJValue, hm] at h
      rw [if_pos trivial] at h
      split at h
      · injection h with h
        have hv := (Prod.mk.inj h).1
        rw [← hv]
        rfl
      · rcases Option.map_eq_some'.mp h with ⟨p, -, hp2⟩
        have hv := (Prod.mk.inj hp2).1
        rw [← hv]
        rfl

theorem parseJValue_arr {f : Nat} {cs : List Char} {v : PyVal}
    {rest : List Char} (h : parseJValue f cs = some (v, rest))
    (hh : (skipWs cs).head? = some '[') : v.isList = true := by
  cases f with
  | zero => simp [parseJValue] at h
  | succ f =>
    cases hm : skipWs cs with
    | nil => rw [hm] at hh; simp at hh
    | cons c0 m =>
      rw [hm] at hh
      simp at hh
      subst hh
      simp only [parseJValue, hm] at h
      rw [if_neg (show ¬('[' = '{') from by decide), if_pos trivial] at h
      split at h
      · injection h with h
        have hv := (Prod.mk.inj h).1
        rw [← hv]
        rfl
      · rcases Option.map_eq_some'.mp h with ⟨p, -, hp2⟩
        have hv := (Prod.mk.inj hp2).1
        rw [← hv]
        rfl

/-- C9: `parse_block_value` normalizes payloads before application: a
string payload whose stripped content starts and ends with matching braces
or matching square brackets is parsed as JSON and replaced by the resulting
mapping or sequence; if the parse fails the plain string is kept; payloads
of any other shape pass through unchanged. -/
theorem c9_parse_block_value :
    (∀ b : PyVal, b.isStr = false → parseBlockValue b = b)
    ∧ (∀ s : String, looksLikeJson s = false →
        parseBlockValue (.vstr s) = .vstr s)
    ∧ (∀ s : String, looksLikeJson s = true → jsonLoads s = none →
        parseBlockValue (.vstr s) = .vstr s)
    ∧ (∀ (s : String) (v : PyVal), looksLikeJson s = true →
        jsonLoads s = some v →
        parseBlockValue (.vstr s) = v ∧
          (v.isDict = true ∨ v.isList = true)) := by
  refine ⟨?_, ?_, ?_, ?_⟩
  · intro b hb
    cases b <;> simp_all [PyVal.isStr, parseBlockValue]
  · intro s hl
    simp [parseBlockValue, hl]
  · intro s hl hj
    simp [parseBlockValue, hl, hj]
  · intro s v hl hj
    refine ⟨by simp [parseBlockValue, hl, hj], ?_⟩
    have hform : ∃ rest, parseJValue (s.length + 1) s.toList = some (v, rest) := by
      rw [jsonLoads] at hj
      split at hj
      · rename_i v0 rest hp
        split at hj
        · injection hj with hj
          subst hj
          exact ⟨rest, hp⟩
        · cases hj
      · cases hj
    obtain ⟨rest, hp⟩ := hform
    have hl' := hl
    rw [looksLikeJson] at hl'
    simp only [Bool.or_eq_true, Bool.and_eq_true, decide_eq_true_eq] at hl'
    rcases hl' with ⟨hh, -⟩ | ⟨hh, -⟩
    · exact Or.inl (parseJValue_obj hp (jsonLoads_skipWs_head hh hj))
    · exact Or.inr (parseJValue_arr hp (jsonLoads_skipWs_head hh hj))

/-- C9 witness: the four normalization branches evaluated on concrete
payloads — a non-string, a non-JSON-looking string, a JSON-looking string
that fails to parse, and a JSON object string that parses to a mapping. -/
theorem c9_parse_block_value_witness :
    parseBlockValue (PyVal.vint 3) = PyVal.vint 3 ∧
    parseBlockValue (PyVal.vstr "plain") = PyVal.vstr "plain" ∧
    parseBlockValue (PyVal.vstr "\x7b bad \x7d") = PyVal.vstr "\x7b bad \x7d" ∧
    (parseBlockValue (PyVal.vstr "\x7b\"a\": \"b\"\x7d") =
        PyVal.vdict [("a", PyVal.vstr "b")] ∧
      ((PyVal.vdict [("a", PyVal.vstr "b")]).isDict = true ∨
        (PyVal.vdict [("a", PyVal.vstr "b")]).isList = true)) :=
  ⟨c9_parse_block_value.1 (PyVal.vint 3) rfl,
    c9_parse_block_value.2.1 "plain" (by decide),
    c9_parse_block_value.2.2.1 "\x7b bad \x7d" (by decide) rfl,
    c9_parse_block_value.2.2.2 "\x7b\"a\": \"b\"\x7d"
      (PyVal.vdict [("a", PyVal.vstr "b")]) (by decide) rfl⟩

/-- C7: a structural operation at location `root` requires its normalized
payload to be a mapping: a non-dict payload makes the whole apply raise
(`ValueError`, fatal to the batch, modelled `none`); a dict payload
replaces the entire document; and of several root operations in one batch
each overwrites the previous result (last write wins). -/
theorem c7_root_replacement :
    (∀ (previous : Option PyDict) (op : Operation) (rest : List Operation),
      op.location = "root" → (parseBlockValue op.block).isDict = false →
      applyOperations previous (op :: rest) = none)
    ∧ (∀ (previous : Option PyDict) (op : Operation) (rest : List Operation)
        (d : PyDict),
      op.location = "root" → parseBlockValue op.block = .vdict d →
      applyOperations previous (op :: rest) = applyOperationsGo d rest)
    ∧ (∀ (previous : Option PyDict) (op1 op2 : Operation)
        (rest : List Operation) (d1 d2 : PyDict),
      op1.location = "root" → op2.location = "root" →
      parseBlockValue op1.block = .vdict d1 →
      parseBlockValue op2.block = .vdict d2 →
      applyOperations previous (op1 :: op2 :: rest) =
        applyOperations previous (op2 :: rest)) := by
  refine ⟨?_, ?_, ?_⟩
  · intro prev op rest hloc hnd
    cases hpb : parseBlockValue op.block <;>
      simp_all [applyOperations, applyOperationsGo, PyVal.isDict]
  · intro prev op rest d hloc hpb
    simp [applyOperations, applyOperationsGo, hloc, hpb]
  · intro prev op1 op2 rest d1 d2 h1 h2 hp1 hp2
    simp [applyOperations, applyOperationsGo, h1, h2, hp1, hp2]

/-- C7 witness: the root contract evaluated on concrete operations — a
string root payload aborts, a dict root payload replaces the document, and
two root operations end with the second one's payload. -/
theorem c7_root_replacement_witness :
    applyOperations none [⟨"add", "root", PyVal.vstr "nope", ""⟩] = none ∧
    applyOperations (some [("z", PyVal.vstr "old")])
        [⟨"add", "root", PyVal.vdict [("a", PyVal.vstr "b")], ""⟩] =
      applyOperationsGo [("a", PyVal.vstr "b")] [] ∧
    applyOperations none
        [⟨"add", "root", PyVal.vdict [("a", PyVal.vstr "1")], ""⟩,
          ⟨"add", "root", PyVal.vdict [("b", PyVal.vstr "2")], ""⟩] =
      applyOperations none
        [⟨"add", "root", PyVal.vdict [("b", PyVal.vstr "2")], ""⟩] :=
  ⟨c7_root_replacement.1 none ⟨"add", "root", PyVal.vstr "nope", ""⟩ [] rfl
      (by decide),
    c7_root_replacement.2.1 (some [("z", PyVal.vstr "old")])
      ⟨"add", "root", PyVal.vdict [("a", PyVal.vstr "b")], ""⟩ []
      [("a", PyVal.vstr "b")] rfl rfl,
    c7_root_replacement.2.2 none
      ⟨"add", "root", PyVal.vdict [("a", PyVal.vstr "1")], ""⟩
      ⟨"add", "root", PyVal.vdict [("b", PyVal.vstr "2")], ""⟩ []
      [("a", PyVal.vstr "1")] [("b", PyVal.vstr "2")] rfl rfl rfl rfl⟩

theorem chainFrom_version_ge :
    ∀ (rs : List DiagramRecord) (n : Nat) (p : Option String),
      chainFrom n p rs → ∀ r ∈ rs, n ≤ r.version := by
  intro rs
  induction rs with
  | nil => intro n p _ r hr; simp at hr
  | cons r0 rs ih =>
    intro n p hc r hr
    obtain ⟨hv, -, hrest⟩ := hc
    rcases List.mem_cons.mp hr with hr | hr
    · subst hr; omega
    · have := ih (n + 1) (some r0.diagram_id) hrest r hr
      omega

theorem selectFirstMax_chain :
    ∀ (rs : List DiagramRecord) (n : Nat) (p : Option String),
      chainFrom n p rs → selectFirstMax rs = rs.getLast? := by
  intro rs
  induction rs with
  | nil => intro n p _; rfl
  | cons r0 rs ih =>
    intro n p hc
    obtain ⟨hv, -, hrest⟩ := hc
    cases rs with
    | nil => rfl
    | cons r1 rs' =>
      have hih := ih (n + 1) (some r0.diagram_id) hrest
      rw [selectFirstMax, hih]
      cases hl : (r1 :: rs').getLast? with
      | none => simp at hl
      | some l =>
        have hmem : l ∈ r1 :: rs' := List.mem_of_mem_getLast? hl
        have hge := chainFrom_version_ge _ _ _ hrest l hmem
        have hlt : r0.version < l.version := by omega
        simp only [if_pos hlt, List.getLast?_cons_cons, hl]

theorem chainFrom_getLast_version :
    ∀ (rs : List DiagramRecord) (n : Nat) (p : Option String)
      (l : DiagramRecord), chainFrom n p rs → rs.getLast? = some l →
      l.version = n + rs.length - 1 := by
  intro rs
  induction rs with
  | nil => intro n p l _ hl; simp at hl
  | cons r0 rs ih =>
    intro n p l hc hl
    obtain ⟨hv, -, hrest⟩ := hc
    cases rs with
    | nil =>
      simp at hl
      subst hl
      simp [hv]
    | cons r1 rs' =>
      rw [List.getLast?_cons_cons] at hl
      have := ih (n + 1) (some r0.diagram_id) l hrest hl
      simp only [List.length_cons] at this ⊢
      omega

theorem chainFrom_append :
    ∀ (rs : List DiagramRecord) (n : Nat) (p : Option String)
      (r : DiagramRecord), chainFrom n p rs →
      r.version = n + rs.length →
      r.parent_diagram_id =
        (match rs.getLast? with
          | none => p
          | some l => some l.diagram_id) →
      chainFrom n p (rs ++ [r]) := by
  intro rs
  induction rs with
  | nil =>
    intro n p r _ hv hp
    simp at hp
    exact ⟨by simpa using hv, hp, trivial⟩
  | cons r0 rs ih =>
    intro n p r hc hv hp
    obtain ⟨h0v, h0p, hrest⟩ := hc
    refine ⟨h0v, h0p, ?_⟩
    apply ih (n + 1) (some r0.diagram_id) r hrest
    · simp only [List.length_cons] at hv
      omega
    · cases rs with
      | nil => simpa using hp
      | cons r1 rs' =>
        rw [List.getLast?_cons_cons] at hp
        exact hp

theorem commitDiagram_filter_same (db : List DiagramRecord)
    (user thread message dtype : String) :
    (commitDiagram db user thread message dtype).filter
        (fun d => matchesKey d user thread dtype) =
      db.filter (fun d => matchesKey d user thread dtype) ++
        [{ diagram_id := generateDiagramId user thread message dtype,
           parent_diagram_id :=
             (match getLatestDiagram db user thread dtype with
               | some l => some l.diagram_id
               | none => none),
           version :=
             (match getLatestDiagram db user thread dtype with
               | some l => l.version + 1
               | none => 1),
           user_id := user, thread_id := thread, message_id := message,
           diagram_type := dtype }] := by
  simp only [commitDiagram, List.filter_append]
  congr 1
  simp [matchesKey]

theorem commitAll_chain (user thread dtype : String) :
    ∀ (msgs : List String) (db : List DiagramRecord),
      chainFrom 1 none (db.filter (fun d => matchesKey d user thread dtype)) →
      chainFrom 1 none
        ((commitAll db user thread dtype msgs).filter
          (fun d => matchesKey d user thread dtype)) ∧
      ((commitAll db user thread dtype msgs).filter
          (fun d => matchesKey d user thread dtype)).length =
        (db.filter (fun d => matchesKey d user thread dtype)).length +
          msgs.length := by
  intro msgs
  induction msgs with
  | nil => intro db hc; exact ⟨hc, by simp [commitAll]⟩
  | cons m ms ih =>
    intro db hc
    have hlatest : getLatestDiagram db user thread dtype =
        (db.filter (fun d => matchesKey d user thread dtype)).getLast? := by
      rw [getLatestDiagram]
      exact selectFirstMax_chain _ 1 none hc
    have hfilter := commitDiagram_filter_same db user thread m dtype
    rw [hlatest] at hfilter
    have hnewv : (match (db.filter (fun d => matchesKey d user thread dtype)).getLast? with
        | some l => l.version + 1
        | none => 1) =
        1 + (db.filter (fun d => matchesKey d user thread dtype)).length := by
      cases hl : (db.filter (fun d => matchesKey d user thread dtype)).getLast? with
      | none =>
        have hnil := List.getLast?_eq_none_iff.mp hl
        simp [hnil]
      | some l =>
        have hver := chainFrom_getLast_version _ 1 none l hc hl
        have hne : db.filter (fun d => matchesKey d user thread dtype) ≠ [] := by
          intro h0
          rw [h0] at hl
          simp at hl
        have hpos : 0 < (db.filter (fun d => matchesKey d user thread dtype)).length :=
          List.length_pos.mpr hne
        show l.version + 1 = 1 + _
        omega
    have hchain' : chainFrom 1 none
        ((commitDiagram db user thread m dtype).filter
          (fun d => matchesKey d user thread dtype)) := by
      rw [hfilter]
      apply chainFrom_append _ 1 none _ hc
      · exact hnewv
      · cases (db.filter (fun d => matchesKey d user thread dtype)).getLast? <;> rfl
    have hih := ih (commitDiagram db user thread m dtype) hchain'
    refine ⟨hih.1, ?_⟩
    rw [show commitAll db user thread dtype (m :: ms) =
        commitAll (commitDiagram db user thread m dtype) user thread dtype ms
      from rfl]
    rw [hih.2, hfilter]
    simp only [List.length_append, List.length_cons, List.length_nil]
    omega

/-- C4: committing `N` artifacts sequentially for the same
(owner, conversation, diagram-kind) key starting from a database with no
record for that key yields a chain of `N` records with versions `1..N`,
each record's parent id equal to the previous commit's diagram id (and
version 1 with no parent); and a commit under any different key leaves the
first key's records untouched. -/
theorem c4_version_ledger :
    (∀ (user thread dtype : String) (msgs : List String)
        (db : List DiagramRecord),
      db.filter (fun d => matchesKey d user thread dtype) = [] →
      chainFrom 1 none
        ((commitAll db user thread dtype msgs).filter
          (fun d => matchesKey d user thread dtype)) ∧
      ((commitAll db user thread dtype msgs).filter
          (fun d => matchesKey d user thread dtype)).length = msgs.length)
    ∧ (∀ (user thread dtype user' thread' message' dtype' : String)
        (db : List DiagramRecord),
      ¬(user' = user ∧ thread' = thread ∧ dtype' = dtype) →
      (commitDiagram db user' thread' message' dtype').filter
          (fun d => matchesKey d user thread dtype) =
        db.filter (fun d => matchesKey d user thread dtype)) := by
  constructor
  · intro user thread dtype msgs db h0
    have := commitAll_chain user thread dtype msgs db (by rw [h0]; trivial)
    rw [h0] at this
    simpa using this
  · intro user thread dtype user' thread' message' dtype' db hne
    simp only [commitDiagram, List.filter_append]
    have hrec : (List.filter (fun d => matchesKey d user thread dtype)
        [{ diagram_id := generateDiagramId user' thread' message' dtype',
           parent_diagram_id :=
             (match getLatestDiagram db user' thread' dtype' with
               | some l => some l.diagram_id
               | none => none),
           version :=
             (match getLatestDiagram db user' thread' dtype' with
               | some l => l.version + 1
               | none => 1),
           user_id := user', thread_id := thread', message_id := message',
           diagram_type := dtype' }]) = [] := by
      have hm : matchesKey
          { diagram_id := generateDiagramId user' thread' message' dtype',
            parent_diagram_id :=
              (match getLatestDiagram db user' thread' dtype' with
                | some l => some l.diagram_id
                | none => none),
            version :=
              (match getLatestDiagram db user' thread' dtype' with
                | some l => l.version + 1
                | none => 1),
            user_id := user', thread_id := thread', message_id := message',
            diagram_type := dtype' } user thread dtype = false := by
        by_contra hb
        rw [Bool.not_eq_false] at hb
        simp only [matchesKey, Bool.and_eq_true, decide_eq_true_eq] at hb
        exact hne ⟨hb.1.1, hb.1.2, hb.2⟩
      simp [hm]
    rw [hrec, List.append_nil]

/-- C4 witness: two commits for one key build the chain `v1 ← v2`, and a
commit under another user does not disturb it. -/
theorem c4_version_ledger_witness :
    ([] : List DiagramRecord).filter (fun d => matchesKey d "u" "t" "class") = [] ∧
    (chainFrom 1 none
        ((commitAll [] "u" "t" "class" ["m1", "m2"]).filter
          (fun d => matchesKey d "u" "t" "class")) ∧
      ((commitAll [] "u" "t" "class" ["m1", "m2"]).filter
          (fun d => matchesKey d "u" "t" "class")).length = 2) ∧
    (commitDiagram [] "u2" "t" "m" "class").filter
        (fun d => matchesKey d "u" "t" "class") =
      ([] : List DiagramRecord).filter (fun d => matchesKey d "u" "t" "class") :=
  ⟨rfl,
    c4_version_ledger.1 "u" "t" "class" ["m1", "m2"] [] rfl,
    c4_version_ledger.2 "u" "t" "class" "u2" "t" "m" "class" [] (by decide)⟩
